import Mathlib

/-!
Verification of the MLIT-Summary-Bot core pipeline (src/mlit_summary.py)
against its natural-language specification.

The embedding below translates the Python source into Lean:
* calendar dates are represented by their proleptic-Gregorian ordinal
  (Python `date.toordinal()` values), so `weekday d = (d + 6) % 7`
  with Monday = 0, exactly as in Python;
* UTC timestamps are epoch seconds (`Int`), and `astimezone(JST).date()`
  is the fixed +9h shift of Japan Standard Time (no DST);
* Python strings are `List Char` (both count Unicode scalar values);
* fallible Python code returns `Except`;
* external collaborators that the spec rules out of scope (HTTP transport,
  BeautifulSoup text extraction, `textwrap.shorten`, `urljoin`) are
  passed in as function parameters.
-/

/-- Python `date.weekday()` on an ordinal: Monday = 0 … Sunday = 6
(ordinal 1 = 0001-01-01 is a Monday). -/
def pyWeekday (d : Int) : Int := (d + 6) % 7

/-- `get_fetch_date` from src/mlit_summary.py.
`today` is `dt.datetime.now(JST).date()` as an ordinal. The candidate is
`today - days_back`; a Saturday (weekday 5) rolls back one day and a
Sunday (weekday 6) rolls back two days. -/
def get_fetch_date (today : Int) (days_back : Int) : Int :=
  let fetch_date := today - days_back
  if pyWeekday fetch_date = 5 then fetch_date - 1
  else if pyWeekday fetch_date = 6 then fetch_date - 2
  else fetch_date

/-- Claim C1: for every `days_back ≥ 0` and every "now", `get_fetch_date`
never lands on weekday 5 (Saturday) or 6 (Sunday): a Saturday candidate is
rolled back one day and a Sunday candidate two days, both to the preceding
Friday (weekday 4). -/
theorem get_fetch_date_never_weekend (today days_back : Int)
    (h : 0 ≤ days_back) :
    pyWeekday (get_fetch_date today days_back) ≠ 5 ∧
    pyWeekday (get_fetch_date today days_back) ≠ 6 ∧
    (pyWeekday (today - days_back) = 5 →
      get_fetch_date today days_back = today - days_back - 1 ∧
      pyWeekday (get_fetch_date today days_back) = 4) ∧
    (pyWeekday (today - days_back) = 6 →
      get_fetch_date today days_back = today - days_back - 2 ∧
      pyWeekday (get_fetch_date today days_back) = 4) := by
  simp only [get_fetch_date, pyWeekday]
  split_ifs with h5 h6 <;>
    refine ⟨?_, ?_, ?_, ?_⟩ <;> omega

/-- Witness for C1 at a concrete weekend: ordinal 739207 is 2024-11-17;
with `days_back = 1` the candidate 739206 is Saturday 2024-11-16, so the
roll-back yields the preceding Friday 2024-11-15 (ordinal 739205). -/
theorem get_fetch_date_never_weekend_witness :
    pyWeekday (get_fetch_date 739207 1) ≠ 5 ∧
    pyWeekday (get_fetch_date 739207 1) ≠ 6 ∧
    (pyWeekday (739207 - 1) = 5 →
      get_fetch_date 739207 1 = 739207 - 1 - 1 ∧
      pyWeekday (get_fetch_date 739207 1) = 4) ∧
    (pyWeekday (739207 - 1) = 6 →
      get_fetch_date 739207 1 = 739207 - 1 - 2 ∧
      pyWeekday (get_fetch_date 739207 1) = 4) :=
  get_fetch_date_never_weekend 739207 1 (by decide)

/-!
## Chunking (`_chunk_text` inside `send_to_slack`)

`s.split("\n\n")` then greedy paragraph accumulation with hard fixed-length
splitting of oversized paragraphs.
-/

/-- Python `s.split("\n\n")`: split on each left-to-right non-overlapping
occurrence of the two-character separator, keeping empty pieces
(`"".split("\n\n") == [""]`). -/
def splitPar : List Char → List (List Char)
  | '\n' :: '\n' :: rest => [] :: splitPar rest
  | c :: rest =>
    match splitPar rest with
    | [] => [[c]]
    | h :: t => (c :: h) :: t
  | [] => [[]]

/-- The hard split `for i in range(0, len(p), limit): chunks.append(p[i:i+limit])`
of an oversized paragraph into consecutive `limit`-sized slices.
(The source only reaches this with `limit > 0` and `p` nonempty;
a zero `limit` would raise in Python and yields `[]` here.) -/
def hardSplit (limit : Nat) (p : List Char) : List (List Char) :=
  if h : p = [] ∨ limit = 0 then []
  else p.take limit :: hardSplit limit (p.drop limit)
termination_by p.length
decreasing_by
  push_neg at h
  simp only [List.length_drop]
  cases p with
  | nil => exact absurd rfl h.1
  | cons a l => simp; omega

/-- The accumulation loop of `_chunk_text`: `cur` is the running chunk,
one paragraph is consumed per step, exactly as in the Python `for` loop. -/
def chunkLoop (limit : Nat) : List (List Char) → List Char → List (List Char)
  | [], cur => if cur = [] then [] else [cur]
  | p :: ps, cur =>
    let candidate := if cur = [] then p else cur ++ '\n' :: '\n' :: p
    if limit < candidate.length then
      if cur = [] then hardSplit limit p ++ chunkLoop limit ps []
      else
        cur :: (if limit < p.length then hardSplit limit p ++ chunkLoop limit ps []
                else chunkLoop limit ps p)
    else chunkLoop limit ps candidate

/-- `_chunk_text` from src/mlit_summary.py (the paragraph-respecting,
length-bounded chunker used before posting to Slack). -/
def _chunk_text (s : List Char) (limit : Nat) : List (List Char) :=
  chunkLoop limit (splitPar s) []

/-- Every slice produced by the hard split has length at most `limit`. -/
theorem hardSplit_length_le (limit : Nat) (p : List Char) :
    ∀ c ∈ hardSplit limit p, c.length ≤ limit := by
  induction p using hardSplit.induct limit with
  | case1 p h => rw [hardSplit, dif_pos h]; intro c hc; cases hc
  | case2 p h ih =>
    rw [hardSplit, dif_neg h]
    intro c hc
    rcases List.mem_cons.mp hc with hc | hc
    · subst hc; simpa using List.length_take_le limit p
    · exact ih c hc

/-- The hard-split slices concatenate back to the original paragraph. -/
theorem hardSplit_flatten (limit : Nat) (hl : 0 < limit) (p : List Char) :
    (hardSplit limit p).flatten = p := by
  induction p using hardSplit.induct limit with
  | case1 p h =>
    rcases h with h | h
    · rw [hardSplit, dif_pos (Or.inl h), h]; rfl
    · omega
  | case2 p h ih =>
    rw [hardSplit, dif_neg h]
    simp [ih]

/-- The hard split of a nonempty paragraph is nonempty, and every slice is
nonempty when `limit > 0`. -/
theorem hardSplit_ne_nil (limit : Nat) (hl : 0 < limit) (p : List Char)
    (hp : p ≠ []) : hardSplit limit p ≠ [] := by
  rw [hardSplit, dif_neg (by push_neg; exact ⟨hp, by omega⟩)]
  simp

theorem hardSplit_mem_ne_nil (limit : Nat) (hl : 0 < limit) (p : List Char) :
    ∀ c ∈ hardSplit limit p, c ≠ [] := by
  induction p using hardSplit.induct limit with
  | case1 p h => rw [hardSplit, dif_pos h]; intro c hc; cases hc
  | case2 p h ih =>
    rw [hardSplit, dif_neg h]
    push_neg at h
    intro c hc
    rcases List.mem_cons.mp hc with hc | hc
    · subst hc
      cases p with
      | nil => exact absurd rfl h.1
      | cons a l => simp [List.take_cons]; omega
    · exact ih c hc

/-- All slices but the last have length exactly `limit`, and the last is
nonempty and at most `limit` long (for a nonempty paragraph). -/
theorem hardSplit_exact (limit : Nat) (p : List Char) :
    ∀ c ∈ (hardSplit limit p).dropLast, c.length = limit := by
  induction p using hardSplit.induct limit with
  | case1 p h => rw [hardSplit, dif_pos h]; intro c hc; cases hc
  | case2 p h ih =>
    push_neg at h
    rw [hardSplit, dif_neg (by push_neg; exact h)]
    intro c hc
    by_cases hrest : hardSplit limit (p.drop limit) = []
    · rw [hrest] at hc; cases hc
    · rw [List.dropLast_cons_of_ne_nil hrest] at hc
      rcases List.mem_cons.mp hc with hc | hc
      · subst hc
        -- the tail split being nonempty forces `p.drop limit ≠ []`
        by_cases hd : p.drop limit = []
        · exact absurd (by rw [hardSplit, dif_pos (Or.inl hd)]) hrest
        · have : limit ≤ p.length := by
            by_contra hlen
            exact hd (List.drop_eq_nil_of_le (by omega))
          simp [List.length_take]; omega
      · exact ih c hc

/-- Invariant of the accumulation loop: if the running chunk is within the
limit, every emitted chunk is within the limit. -/
theorem chunkLoop_length_le (limit : Nat) :
    ∀ (ps : List (List Char)) (cur : List Char), cur.length ≤ limit →
      ∀ c ∈ chunkLoop limit ps cur, c.length ≤ limit := by
  intro ps
  induction ps with
  | nil =>
    intro cur hcur c hc
    simp only [chunkLoop] at hc
    split at hc
    · cases hc
    · rw [List.mem_singleton] at hc; subst hc; exact hcur
  | cons p ps ih =>
    intro cur hcur c hc
    simp only [chunkLoop] at hc
    split at hc
    · -- cur = []
      split at hc
      · rcases List.mem_append.mp hc with hc | hc
        · exact hardSplit_length_le limit p c hc
        · exact ih [] (by simp) c hc
      · exact ih p (by omega) c hc
    · -- cur ≠ []
      split at hc
      · rcases List.mem_cons.mp hc with hc | hc
        · subst hc; exact hcur
        · split at hc
          · rcases List.mem_append.mp hc with hc | hc
            · exact hardSplit_length_le limit p c hc
            · exact ih [] (by simp) c hc
          · exact ih p (by omega) c hc
      · exact ih _ (by omega) c hc

/-- Invariant of the accumulation loop: no emitted chunk is empty
(when `limit > 0`). -/
theorem chunkLoop_ne_nil (limit : Nat) (hl : 0 < limit) :
    ∀ (ps : List (List Char)) (cur : List Char),
      ∀ c ∈ chunkLoop limit ps cur, c ≠ [] := by
  intro ps
  induction ps with
  | nil =>
    intro cur c hc
    simp only [chunkLoop] at hc
    split at hc
    · cases hc
    · rw [List.mem_singleton] at hc; subst hc; assumption
  | cons p ps ih =>
    intro cur c hc
    simp only [chunkLoop] at hc
    split at hc
    · -- cur = []
      split at hc
      · rcases List.mem_append.mp hc with hc | hc
        · exact hardSplit_mem_ne_nil limit hl p c hc
        · exact ih [] c hc
      · exact ih p c hc
    · -- cur ≠ []
      split at hc
      · rcases List.mem_cons.mp hc with hc | hc
        · subst hc; assumption
        · split at hc
          · rcases List.mem_append.mp hc with hc | hc
            · exact hardSplit_mem_ne_nil limit hl p c hc
            · exact ih [] c hc
          · exact ih p c hc
      · exact ih _ c hc

/-- A string with no newline is a single paragraph for `split("\n\n")`. -/
theorem splitPar_no_newline (s : List Char) (h : '\n' ∉ s) :
    splitPar s = [s] := by
  induction s with
  | nil => rfl
  | cons c rest ih =>
    have hc : c ≠ '\n' := fun hcn => h (hcn ▸ List.mem_cons_self c rest)
    have hrest : '\n' ∉ rest := fun hr => h (List.mem_cons_of_mem c hr)
    rw [splitPar.eq_2 c rest (fun _ hcn _ => hc hcn), ih hrest]

/-- If the input is a single paragraph longer than the limit, `_chunk_text`
reduces to the hard split. -/
theorem chunk_text_single_oversize (p : List Char) (limit : Nat)
    (hp : splitPar p = [p]) (hlt : limit < p.length) :
    _chunk_text p limit = hardSplit limit p := by
  rw [_chunk_text, hp]
  have h1 : chunkLoop limit [p] [] =
      if limit < p.length then hardSplit limit p ++ chunkLoop limit [] []
      else chunkLoop limit [] p := by
    simp only [chunkLoop, reduceIte]
  rw [h1, if_pos hlt]
  simp [chunkLoop]

theorem hardSplit_replicate_example :
    hardSplit 3000 (List.replicate 5000 'a') =
      [List.replicate 3000 'a', List.replicate 2000 'a'] := by
  have hne : ∀ n : Nat, n ≠ 0 → ¬(List.replicate n 'a' = [] ∨ (3000 : Nat) = 0) := by
    intro n hn
    push_neg
    refine ⟨?_, by norm_num⟩
    intro h
    have h2 := congrArg List.length h
    simp only [List.length_replicate, List.length_nil] at h2
    exact hn h2
  rw [hardSplit, dif_neg (hne 5000 (by norm_num)), List.take_replicate,
    List.drop_replicate, show min 3000 5000 = 3000 from by norm_num,
    show 5000 - 3000 = 2000 from by norm_num]
  rw [hardSplit, dif_neg (hne 2000 (by norm_num)), List.take_replicate,
    List.drop_replicate, show min 3000 2000 = 2000 from by norm_num,
    show 2000 - 3000 = 0 from by norm_num, List.replicate_zero]
  rw [hardSplit, dif_pos (Or.inl rfl)]

/-- Claim C2: every chunk emitted by `_chunk_text` has length at most
`limit`; a single paragraph longer than `limit` is hard-split into
consecutive slices of exactly `limit` characters (only the last possibly
shorter, and the slices concatenate back to the paragraph); in particular a
single 5000-character paragraph with limit 3000 yields exactly the chunks
of lengths 3000 and 2000. -/
theorem chunk_text_bound_and_hard_split :
    (∀ (s : List Char) (limit : Nat), 0 < limit →
      ∀ c ∈ _chunk_text s limit, c.length ≤ limit) ∧
    (∀ (p : List Char) (limit : Nat), splitPar p = [p] → limit < p.length →
      _chunk_text p limit = hardSplit limit p ∧
      (0 < limit → (hardSplit limit p).flatten = p) ∧
      (∀ c ∈ (hardSplit limit p).dropLast, c.length = limit) ∧
      (∀ c ∈ hardSplit limit p, c.length ≤ limit)) ∧
    _chunk_text (List.replicate 5000 'a') 3000 =
      [List.replicate 3000 'a', List.replicate 2000 'a'] := by
  refine ⟨?_, ?_, ?_⟩
  · intro s limit _ c hc
    exact chunkLoop_length_le limit (splitPar s) [] (by simp) c hc
  · intro p limit hp hlt
    exact ⟨chunk_text_single_oversize p limit hp hlt,
      fun hl => hardSplit_flatten limit hl p, hardSplit_exact limit p,
      hardSplit_length_le limit p⟩
  · have hnl : '\n' ∉ List.replicate 5000 'a' := by
      intro h
      exact absurd (List.eq_of_mem_replicate h) (by decide)
    rw [chunk_text_single_oversize _ _ (splitPar_no_newline _ hnl)
        (by rw [List.length_replicate]; norm_num),
      hardSplit_replicate_example]

/-- Witness for C2 at a concrete input: the single chunk of `"ab"` with
limit 2 has length at most 2. -/
theorem chunk_text_bound_witness : (['a', 'b'] : List Char).length ≤ 2 :=
  chunk_text_bound_and_hard_split.1 ['a', 'b'] 2 (by decide) ['a', 'b']
    (by decide)

/-- Claim C10: `_chunk_text` never emits an empty chunk (for positive
limits), and the empty string yields the empty chunk sequence. -/
theorem chunk_text_no_empty_chunks :
    (∀ (s : List Char) (limit : Nat), 0 < limit →
      ∀ c ∈ _chunk_text s limit, c ≠ []) ∧
    (∀ limit : Nat, _chunk_text [] limit = []) := by
  constructor
  · intro s limit hl c hc
    exact chunkLoop_ne_nil limit hl (splitPar s) [] c hc
  · intro limit
    show chunkLoop limit (splitPar []) [] = []
    rw [splitPar.eq_3]
    simp [chunkLoop]

/-- Witness for C10 at a concrete input: the single chunk of `"a"` with
limit 1 is nonempty. -/
theorem chunk_text_no_empty_chunks_witness : (['a'] : List Char) ≠ [] :=
  chunk_text_no_empty_chunks.1 ['a'] 1 (by decide) ['a'] (by decide)

/-!
## Claim C3: reassembling the chunks

`joinPars` is Python `"\n\n".join(...)`; `joinWith` joins a chunk sequence
with one explicit separator per gap, so that "collapsing the boundaries
introduced by hard splits" is expressed as choosing the empty separator at
those gaps and the blank-line separator everywhere else.
-/

def joinPars : List (List Char) → List Char
  | [] => []
  | [p] => p
  | p :: q :: ps => p ++ '\n' :: '\n' :: joinPars (q :: ps)

def joinWith : List (List Char) → List (List Char) → List Char
  | [], _ => []
  | [c], _ => c
  | c :: c2 :: cs, [] => c ++ joinWith (c2 :: cs) []
  | c :: c2 :: cs, sep :: seps => c ++ sep ++ joinWith (c2 :: cs) seps

/-- Separators allowed when reassembling: a hard-split boundary collapses
to nothing, every other gap restores the blank line. -/
def sepsOk (seps : List (List Char)) : Prop :=
  ∀ x ∈ seps, x = [] ∨ x = ['\n', '\n']

theorem joinPars_cons (p : List Char) (ps : List (List Char)) (hps : ps ≠ []) :
    joinPars (p :: ps) = p ++ '\n' :: '\n' :: joinPars ps := by
  cases ps with
  | nil => exact absurd rfl hps
  | cons q qs => rfl

theorem joinWith_cons (c : List Char) (cs : List (List Char)) (s : List Char)
    (ss : List (List Char)) (h : cs ≠ []) :
    joinWith (c :: cs) (s :: ss) = c ++ s ++ joinWith cs ss := by
  cases cs with
  | nil => exact absurd rfl h
  | cons => rfl

theorem joinWith_all_nil (cs : List (List Char)) :
    ∀ seps, (∀ x ∈ seps, x = ([] : List Char)) →
      joinWith cs seps = cs.flatten := by
  induction cs with
  | nil => intro seps _; rfl
  | cons c cs ih =>
    intro seps hseps
    cases cs with
    | nil => simp [joinWith]
    | cons c2 cs' =>
      cases seps with
      | nil => rw [joinWith, ih [] (by simp)]; simp
      | cons s ss =>
        have hs : s = [] := hseps s (List.mem_cons_self s ss)
        rw [joinWith, ih ss (fun x hx => hseps x (List.mem_cons_of_mem s hx)),
          hs]
        simp

theorem joinWith_append (as bs sepsA sepsB : List (List Char))
    (sep : List Char) (hb : bs ≠ []) (hlen : sepsA.length + 1 = as.length) :
    joinWith (as ++ bs) (sepsA ++ sep :: sepsB) =
      joinWith as sepsA ++ sep ++ joinWith bs sepsB := by
  induction as generalizing sepsA with
  | nil => simp at hlen
  | cons a as' ih =>
    cases as' with
    | nil =>
      have : sepsA = [] := by
        cases sepsA with
        | nil => rfl
        | cons s ss => simp at hlen
      subst this
      rw [List.nil_append, List.cons_append, List.nil_append,
        joinWith_cons a bs sep sepsB hb]
      rfl
    | cons a2 as'' =>
      cases sepsA with
      | nil => simp at hlen
      | cons s0 sepsA' =>
        rw [show (a :: a2 :: as'') ++ bs = a :: ((a2 :: as'') ++ bs) from rfl,
          show (s0 :: sepsA') ++ sep :: sepsB
              = s0 :: (sepsA' ++ sep :: sepsB) from rfl,
          joinWith_cons a ((a2 :: as'') ++ bs) s0 (sepsA' ++ sep :: sepsB)
            (by simp),
          ih sepsA' (by simpa using hlen),
          joinWith_cons a (a2 :: as'') s0 sepsA' (by simp)]
        simp [List.append_assoc]

theorem splitPar_ne_nil (s : List Char) : splitPar s ≠ [] := by
  induction s using splitPar.induct with
  | case1 rest ih => rw [splitPar.eq_1]; simp
  | case2 c rest h hnil ih =>
    rw [splitPar.eq_2 c rest h, hnil]
    simp
  | case3 c rest h hd t hcons ih =>
    rw [splitPar.eq_2 c rest h, hcons]
    simp
  | case4 => rw [splitPar.eq_3]; simp

/-- Round trip of Python `"\n\n".join(s.split("\n\n")) == s`. -/
theorem joinPars_splitPar (s : List Char) : joinPars (splitPar s) = s := by
  induction s using splitPar.induct with
  | case1 rest ih =>
    rw [splitPar.eq_1, joinPars_cons [] (splitPar rest) (splitPar_ne_nil rest),
      ih]
    rfl
  | case2 c rest h hnil ih => exact absurd hnil (splitPar_ne_nil rest)
  | case3 c rest h hd t hcons ih =>
    rw [splitPar.eq_2 c rest h, hcons]
    rw [hcons] at ih
    cases t with
    | nil =>
      have h1 : hd = rest := ih
      simp [joinPars, h1]
    | cons hd2 t2 =>
      have h2 : joinPars ((c :: hd) :: hd2 :: t2)
          = (c :: hd) ++ '
' :: '
' :: joinPars (hd2 :: t2) := rfl
      have h3 : joinPars (hd :: hd2 :: t2)
          = hd ++ '
' :: '
' :: joinPars (hd2 :: t2) := rfl
      rw [h3] at ih
      rw [h2, List.cons_append, ih]
  | case4 => rfl

theorem chunkLoop_ne_nil_of_cur (limit : Nat) :
    ∀ (ps : List (List Char)) (cur : List Char), cur ≠ [] →
      chunkLoop limit ps cur ≠ [] := by
  intro ps
  induction ps with
  | nil => intro cur hcur; simp [chunkLoop, hcur]
  | cons p ps ih =>
    intro cur hcur
    simp only [chunkLoop]
    split
    next h => exact absurd h hcur
    next h =>
      split
      · simp
      · exact ih _ (by simp)

theorem chunkLoop_nil_ne_nil (limit : Nat) (hl : 0 < limit) :
    ∀ ps : List (List Char), (∀ p ∈ ps, p ≠ []) → ps ≠ [] →
      chunkLoop limit ps [] ≠ [] := by
  intro ps hps hne
  cases ps with
  | nil => exact absurd rfl hne
  | cons p ps' =>
    have hp : p ≠ [] := hps p (List.mem_cons_self p ps')
    simp only [chunkLoop, reduceIte]
    split
    · intro h
      exact hardSplit_ne_nil limit hl p hp (List.append_eq_nil.mp h).1
    · exact chunkLoop_ne_nil_of_cur limit ps' p hp

theorem joinPars_merge (cur p : List Char) (ps : List (List Char)) :
    joinPars ((cur ++ '\n' :: '\n' :: p) :: ps) = joinPars (cur :: p :: ps) := by
  cases ps with
  | nil => rfl
  | cons q qs => simp [joinPars, List.append_assoc]

/-- Core reassembly invariant of the chunking loop: when all paragraphs are
nonempty, the emitted chunks joined with a suitable choice of separators
(empty at hard-split boundaries, blank line elsewhere) rebuild the
blank-line join of the paragraphs (with the pending chunk `cur` in front
when nonempty). -/
theorem chunkLoop_join (limit : Nat) (hl : 0 < limit) :
    ∀ ps : List (List Char), (∀ p ∈ ps, p ≠ []) →
      (∃ seps, sepsOk seps ∧
        joinWith (chunkLoop limit ps []) seps = joinPars ps) ∧
      (∀ cur : List Char, cur ≠ [] →
        ∃ seps, sepsOk seps ∧
          joinWith (chunkLoop limit ps cur) seps = joinPars (cur :: ps)) := by
  intro ps
  induction ps with
  | nil =>
    intro _
    refine ⟨⟨[], fun x hx => absurd hx (List.not_mem_nil x), by
      simp [chunkLoop, joinWith, joinPars]⟩, ?_⟩
    intro cur hcur
    refine ⟨[], fun x hx => absurd hx (List.not_mem_nil x), ?_⟩
    simp [chunkLoop, hcur, joinWith, joinPars]
  | cons p ps' ih =>
    intro hps
    have hp : p ≠ [] := hps p (List.mem_cons_self p ps')
    have hps' : ∀ q ∈ ps', q ≠ [] :=
      fun q hq => hps q (List.mem_cons_of_mem p hq)
    obtain ⟨ihb, iha⟩ := ih hps'
    have hHSne : hardSplit limit p ≠ [] := hardSplit_ne_nil limit hl p hp
    have hHSlen : 0 < (hardSplit limit p).length := List.length_pos.mpr hHSne
    constructor
    · -- starting with an empty accumulator
      by_cases hlt : limit < p.length
      · have heq : chunkLoop limit (p :: ps') [] =
            hardSplit limit p ++ chunkLoop limit ps' [] := by
          simp only [chunkLoop, reduceIte]
          rw [if_pos hlt]
        by_cases hnil : ps' = []
        · subst hnil
          refine ⟨List.replicate ((hardSplit limit p).length - 1) [],
            fun x hx => Or.inl (List.eq_of_mem_replicate hx), ?_⟩
          rw [heq, show chunkLoop limit [] [] = [] from by simp [chunkLoop],
            List.append_nil,
            joinWith_all_nil _ _ (fun x hx => List.eq_of_mem_replicate hx),
            hardSplit_flatten limit hl p]
          rfl
        · obtain ⟨sepsR, hOk, hEq⟩ := ihb
          refine ⟨List.replicate ((hardSplit limit p).length - 1) [] ++
              ['\n', '\n'] :: sepsR, ?_, ?_⟩
          · intro x hx
            rcases List.mem_append.mp hx with hx | hx
            · exact Or.inl (List.eq_of_mem_replicate hx)
            · rcases List.mem_cons.mp hx with hx | hx
              · exact Or.inr hx
              · exact hOk x hx
          · rw [heq,
              joinWith_append _ _ _ _ _
                (chunkLoop_nil_ne_nil limit hl ps' hps' hnil)
                (by rw [List.length_replicate]; omega),
              joinWith_all_nil _ _ (fun x hx => List.eq_of_mem_replicate hx),
              hardSplit_flatten limit hl p, hEq, joinPars_cons p ps' hnil]
            simp [List.append_assoc]
      · have heq : chunkLoop limit (p :: ps') [] = chunkLoop limit ps' p := by
          simp only [chunkLoop, reduceIte]
          rw [if_neg hlt]
        obtain ⟨seps, hOk, hEq⟩ := iha p hp
        exact ⟨seps, hOk, by rw [heq, hEq]⟩
    · -- nonempty accumulator `cur`
      intro cur hcur
      have hc0 : (cur = []) = False := eq_false hcur
      by_cases hlt : limit < (cur ++ '\n' :: '\n' :: p).length
      · by_cases hplt : limit < p.length
        · have heq : chunkLoop limit (p :: ps') cur =
              cur :: (hardSplit limit p ++ chunkLoop limit ps' []) := by
            simp only [chunkLoop, hc0, if_false]
            rw [if_pos hlt, if_pos hplt]
          by_cases hnil : ps' = []
          · subst hnil
            refine ⟨['\n', '\n'] :: List.replicate
                ((hardSplit limit p).length - 1) [], ?_, ?_⟩
            · intro x hx
              rcases List.mem_cons.mp hx with hx | hx
              · exact Or.inr hx
              · exact Or.inl (List.eq_of_mem_replicate hx)
            · rw [heq, show chunkLoop limit [] [] = [] from by
                simp [chunkLoop], List.append_nil,
                joinWith_cons cur (hardSplit limit p) _ _ hHSne,
                joinWith_all_nil _ _ (fun x hx => List.eq_of_mem_replicate hx),
                hardSplit_flatten limit hl p,
                joinPars_cons cur [p] (by simp)]
              simp [joinPars]
          · obtain ⟨sepsR, hOk, hEq⟩ := ihb
            refine ⟨['\n', '\n'] ::
                (List.replicate ((hardSplit limit p).length - 1) [] ++
                  ['\n', '\n'] :: sepsR), ?_, ?_⟩
            · intro x hx
              rcases List.mem_cons.mp hx with hx | hx
              · exact Or.inr hx
              · rcases List.mem_append.mp hx with hx | hx
                · exact Or.inl (List.eq_of_mem_replicate hx)
                · rcases List.mem_cons.mp hx with hx | hx
                  · exact Or.inr hx
                  · exact hOk x hx
            · rw [heq,
                joinWith_cons cur _ _ _
                  (by
                    intro habs
                    exact hHSne (List.append_eq_nil.mp habs).1),
                joinWith_append _ _ _ _ _
                  (chunkLoop_nil_ne_nil limit hl ps' hps' hnil)
                  (by rw [List.length_replicate]; omega),
                joinWith_all_nil _ _ (fun x hx => List.eq_of_mem_replicate hx),
                hardSplit_flatten limit hl p, hEq,
                joinPars_cons cur (p :: ps') (by simp),
                joinPars_cons p ps' hnil]
              simp [List.append_assoc]
        · have heq : chunkLoop limit (p :: ps') cur =
              cur :: chunkLoop limit ps' p := by
            simp only [chunkLoop, hc0, if_false]
            rw [if_pos hlt, if_neg hplt]
          obtain ⟨sepsR, hOk, hEq⟩ := iha p hp
          refine ⟨['\n', '\n'] :: sepsR, ?_, ?_⟩
          · intro x hx
            rcases List.mem_cons.mp hx with hx | hx
            · exact Or.inr hx
            · exact hOk x hx
          · rw [heq,
              joinWith_cons cur _ _ _ (chunkLoop_ne_nil_of_cur limit ps' p hp),
              hEq, joinPars_cons cur (p :: ps') (by simp)]
            simp [List.append_assoc]
      · have heq : chunkLoop limit (p :: ps') cur =
            chunkLoop limit ps' (cur ++ '\n' :: '\n' :: p) := by
          simp only [chunkLoop, hc0, if_false]
          rw [if_neg hlt]
        obtain ⟨seps, hOk, hEq⟩ := iha (cur ++ '\n' :: '\n' :: p) (by simp)
        refine ⟨seps, hOk, ?_⟩
        rw [heq, hEq, joinPars_merge]

/-- Counterexample to claim C3 as stated: the input `"\n\n"` (two empty
paragraphs) produces no chunks at all, so no choice of gap separators can
reassemble it — the empty paragraphs are silently dropped. -/
theorem chunk_text_drops_empty_paragraphs :
    _chunk_text ['\n', '\n'] 3000 = [] ∧
    ¬ ∃ seps, sepsOk seps ∧
        joinWith (_chunk_text ['\n', '\n'] 3000) seps = ['\n', '\n'] := by
  have h : _chunk_text ['\n', '\n'] 3000 = [] := by decide
  refine ⟨h, ?_⟩
  rintro ⟨seps, -, hj⟩
  rw [h] at hj
  exact absurd hj (by simp [joinWith])

/-- Claim C3 (amended): for every input whose paragraphs are all nonempty
and every positive limit, the chunks of `_chunk_text` joined with
blank-line separators — collapsed to nothing at hard-split boundaries —
reproduce the input exactly. (As stated the claim fails for inputs
containing empty paragraphs, which are dropped; see the counterexample.) -/
theorem chunk_text_reassembles (s : List Char) (limit : Nat) (hl : 0 < limit)
    (hs : ∀ p ∈ splitPar s, p ≠ []) :
    ∃ seps, sepsOk seps ∧ joinWith (_chunk_text s limit) seps = s := by
  obtain ⟨seps, hOk, hEq⟩ := (chunkLoop_join limit hl (splitPar s) hs).1
  exact ⟨seps, hOk, by rw [_chunk_text, hEq, joinPars_splitPar]⟩

/-- Witness for (amended) C3 at the concrete input `"a\n\nb"` with
limit 5. -/
theorem chunk_text_reassembles_witness :
    ∃ seps, sepsOk seps ∧
      joinWith (_chunk_text ['a', '\n', '\n', 'b'] 5) seps =
        ['a', '\n', '\n', 'b'] :=
  chunk_text_reassembles ['a', '\n', '\n', 'b'] 5 (by decide) (by decide)

/-!
## `_convert_md_to_slack`

The four regex passes are embedded as explicit left-to-right scanners over
`List Char`, each mirroring Python `re.sub` semantics (leftmost match,
non-overlapping, continue after the match). Scanners take an explicit fuel
argument; every step consumes at least one input character, so fuel equal
to the input length makes the fueled function total and the wrappers below
always supply exactly that.
-/

/-- The characters matched by the regex class `\s` in the ASCII range plus
the two non-ASCII whitespace characters that occur on the scraped pages
(NBSP and ideographic space). -/
def isPySpace (c : Char) : Bool :=
  c = ' ' || c = '\t' || c = '\n' || c = '\r' || c = '\x0b' || c = '\x0c' ||
    c = ' ' || c = '　'

/-- Most-significant-first decimal digits of a positive `n`; the fuel is
only a termination device (`n` itself always suffices). -/
def natDigitsAux : Nat → Nat → List Char
  | 0, _ => []
  | f + 1, n =>
    if n = 0 then []
    else natDigitsAux f (n / 10) ++ [Nat.digitChar (n % 10)]

/-- Decimal digits of `n`, as rendered by Python `str(n)` /
f-string interpolation. -/
def natDigitsChars (n : Nat) : List Char :=
  if n = 0 then ['0'] else natDigitsAux n n

def phStem : List Char :=
  ['_', '_', 'C', 'O', 'D', 'E', 'B', 'L', 'O', 'C', 'K', '_']

/-- The placeholder `f"__CODEBLOCK_{len(code_blocks)}__"`. -/
def placeholderChars (n : Nat) : List Char :=
  phStem ++ natDigitsChars n ++ ['_', '_']

/-- Non-greedy closing of a fenced block: `codeClose rest = some (x, tail)`
when `rest = x ++ "```" ++ tail` with the first (leftmost) closing fence,
mirroring the regex fragment `[\s\S]*?` followed by three backquotes. -/
def codeClose : List Char → Option (List Char × List Char)
  | '`' :: '`' :: '`' :: tail => some ([], tail)
  | c :: rest =>
    match codeClose rest with
    | some (x, tail) => some (c :: x, tail)
    | none => none
  | [] => none

/-- Pass 1 of `_convert_md_to_slack`: scan for fenced code blocks, replace
the `i`-th with `__CODEBLOCK_i__`, and collect the blocks in order
(`re.sub` with a replacement function over the triple-backquote regex). -/
def extractCodeF : Nat → Nat → List Char → List Char × List (List Char)
  | 0, _, s => (s, [])
  | _ + 1, _, [] => ([], [])
  | f + 1, n, '`' :: '`' :: '`' :: rest =>
    match codeClose rest with
    | some (x, tail) =>
      let r := extractCodeF f (n + 1) tail
      (placeholderChars n ++ r.1,
        ('`' :: '`' :: '`' :: (x ++ ['`', '`', '`'])) :: r.2)
    | none =>
      let r := extractCodeF f n ('`' :: '`' :: rest)
      ('`' :: r.1, r.2)
  | f + 1, n, c :: cs =>
    let r := extractCodeF f n cs
    (c :: r.1, r.2)

/-- Non-greedy bold body: the shortest nonempty newline-free capture ending
at the next `**` (regex `(.+?)` before the closing marker). -/
def boldClose : List Char → Option (List Char × List Char)
  | [] => none
  | c :: rest =>
    if c = '\n' then none
    else
      match rest with
      | '*' :: '*' :: tail => some ([c], tail)
      | _ =>
        match boldClose rest with
        | some (x, tail) => some (c :: x, tail)
        | none => none

/-- Pass 2: `re.sub(r"\*\*(.+?)\*\*", r"*\1* ", …)` — note the trailing
space in the replacement. -/
def boldPassF : Nat → List Char → List Char
  | 0, s => s
  | _ + 1, [] => []
  | f + 1, '*' :: '*' :: rest =>
    match boldClose rest with
    | some (x, tail) => '*' :: (x ++ '*' :: ' ' :: boldPassF f tail)
    | none => '*' :: boldPassF f ('*' :: rest)
  | f + 1, c :: cs => c :: boldPassF f cs

/-- A heading match at a line start: `[ \t]*`, one to six `#` (the whole
run), at least one `\s` (greedy, may span line breaks), then the rest of
the line (`.*$`). Returns the `_hdr` replacement, whether the scan resumes
at a line start, and the remainder. -/
def tryHeading (s : List Char) : Option (List Char × Bool × List Char) :=
  let ws := s.takeWhile fun c => c = ' ' || c = '\t'
  let s1 := s.dropWhile fun c => c = ' ' || c = '\t'
  let hashes := s1.takeWhile fun c => c = '#'
  let s2 := s1.dropWhile fun c => c = '#'
  if hashes.length = 0 || 6 < hashes.length then none
  else
    let ws1 := s2.takeWhile isPySpace
    if ws1.isEmpty then none
    else
      let s3 := s2.dropWhile isPySpace
      let lineRest := s3.takeWhile fun c => c ≠ '\n'
      let rest := s3.dropWhile fun c => c ≠ '\n'
      let g0 := ws ++ hashes ++ ws1 ++ lineRest
      let text :=
        if ws.isEmpty then (g0.dropWhile fun c => c = '#').dropWhile isPySpace
        else g0
      some ('*' :: (text ++ ['*']),
        (match g0.getLast? with | some '\n' => true | _ => false), rest)

/-- Pass 3: `re.sub(r"(?m)^[ \t]*#{1,6}\s+.*$", _hdr, …)`. -/
def headingPassF : Nat → Bool → List Char → List Char
  | 0, _, s => s
  | _ + 1, _, [] => []
  | f + 1, bol, c :: cs =>
    if bol then
      match tryHeading (c :: cs) with
      | some (repl, bol2, rest) => repl ++ headingPassF f bol2 rest
      | none => c :: headingPassF f (c == '\n') cs
    else c :: headingPassF f (c == '\n') cs

/-- A list-item match at a line start: `[ \t]*`, a hyphen or asterisk, then
at least one `\s` (greedy). Returns whether the scan resumes at a line
start and the remainder. -/
def tryList (s : List Char) : Option (Bool × List Char) :=
  let s1 := s.dropWhile fun c => c = ' ' || c = '\t'
  match s1 with
  | c :: rest =>
    if c = '-' || c = '*' then
      let ws2 := rest.takeWhile isPySpace
      if ws2.isEmpty then none
      else
        some ((match ws2.getLast? with | some '\n' => true | _ => false),
          rest.dropWhile isPySpace)
    else none
  | [] => none

/-- Pass 4: `re.sub(r"(?m)^[ \t]*[-*]\s+", "• ", …)`. -/
def listPassF : Nat → Bool → List Char → List Char
  | 0, _, s => s
  | _ + 1, _, [] => []
  | f + 1, bol, c :: cs =>
    if bol then
      match tryList (c :: cs) with
      | some (bol2, rest) => '•' :: ' ' :: listPassF f bol2 rest
      | none => c :: listPassF f (c == '\n') cs
    else c :: listPassF f (c == '\n') cs

/-- Python `str.replace`: replace every left-to-right non-overlapping
occurrence of `pat` (the placeholders here are never empty). -/
def replaceAllF : Nat → List Char → List Char → List Char → List Char
  | 0, _, _, s => s
  | _ + 1, _, _, [] => []
  | f + 1, pat, rep, c :: cs =>
    if !pat.isEmpty && pat.isPrefixOf (c :: cs) then
      rep ++ replaceAllF f pat rep ((c :: cs).drop pat.length)
    else c :: replaceAllF f pat rep cs

def replaceAll (pat rep s : List Char) : List Char :=
  replaceAllF s.length pat rep s

/-- Pass 5: `for k, v in code_blocks.items(): md_tmp = md_tmp.replace(k, v)`
(insertion order, replacing all occurrences of each placeholder). -/
def restoreBlocksF : Nat → List (List Char) → List Char → List Char
  | _, [], t => t
  | n, b :: bs, t =>
    restoreBlocksF (n + 1) bs (replaceAll (placeholderChars n) b t)

/-- `_convert_md_to_slack` from src/mlit_summary.py. -/
def _convert_md_to_slack (md : List Char) : List Char :=
  let er := extractCodeF md.length 0 md
  let t1 := boldPassF er.1.length er.1
  let t2 := headingPassF t1.length true t1
  let t3 := listPassF t2.length true t2
  restoreBlocksF 0 er.2 t3

/-- Claim C8: converting `"**Title**\n\n- a\n- b"` and chunking with limit
3000 produces exactly one chunk `"*Title* \n\n• a\n• b"`: the double-star
bold span becomes a single-star span followed by a space, and each `"- "`
list marker becomes `"• "`. -/
theorem convert_md_example_single_chunk :
    _convert_md_to_slack ("**Title**\n\n- a\n- b".toList) =
      "*Title* \n\n• a\n• b".toList ∧
    _chunk_text (_convert_md_to_slack ("**Title**\n\n- a\n- b".toList))
        3000 = ["*Title* \n\n• a\n• b".toList] := by
  constructor
  · decide
  · decide

/-!
## Claim C9: the code-block round trip

A document made only of fenced code blocks and whitespace.
-/

inductive MdSeg where
  | ws (w : List Char)
  | code (body : List Char)

def renderSeg : MdSeg → List Char
  | .ws w => w
  | .code b => '`' :: '`' :: '`' :: (b ++ ['`', '`', '`'])

def renderSegs (segs : List MdSeg) : List Char :=
  (segs.map renderSeg).flatten

/-- Counterexample to claim C9 as stated: a document consisting only of two
fenced code blocks separated by one space, where the first block's body is
the text `__CODEBLOCK_1__`, is corrupted by the converter — the sequential
placeholder restoration substitutes inside the first restored block. -/
theorem code_block_roundtrip_counterexample :
    renderSegs [MdSeg.code ("__CODEBLOCK_1__".toList), MdSeg.ws [' '],
        MdSeg.code ['a']] = "```__CODEBLOCK_1__``` ```a```".toList ∧
    _convert_md_to_slack ("```__CODEBLOCK_1__``` ```a```".toList) ≠
      "```__CODEBLOCK_1__``` ```a```".toList := by
  constructor
  · decide
  · decide

/-!
### Digits of the placeholder counter
-/

def digitList : List Char := ['0', '1', '2', '3', '4', '5', '6', '7', '8', '9']

theorem natDigitsAux_mem (f : Nat) :
    ∀ n, ∀ c ∈ natDigitsAux f n, c ∈ digitList := by
  induction f with
  | zero => intro n c hc; rw [natDigitsAux] at hc; cases hc
  | succ f ih =>
    intro n c hc
    rw [natDigitsAux] at hc
    split at hc
    · cases hc
    · rcases List.mem_append.mp hc with hc | hc
      · exact ih (n / 10) c hc
      · rw [List.mem_singleton] at hc
        subst hc
        have h10 : n % 10 < 10 := Nat.mod_lt n (by norm_num)
        have hall : ∀ d, d < 10 → Nat.digitChar d ∈ digitList := by decide
        exact hall _ h10

theorem natDigitsChars_mem (n : Nat) :
    ∀ c ∈ natDigitsChars n, c ∈ digitList := by
  intro c hc
  rw [natDigitsChars] at hc
  split at hc
  · rw [List.mem_singleton] at hc; subst hc; decide
  · exact natDigitsAux_mem n n c hc

/-- Numeric value of a most-significant-first digit rendering. -/
def charsVal (ds : List Char) : Nat :=
  ds.foldl (fun a c => 10 * a + (c.toNat - 48)) 0

theorem charsVal_natDigitsAux (f : Nat) :
    ∀ n a, n ≤ f →
      List.foldl (fun a c => 10 * a + (c.toNat - 48)) a (natDigitsAux f n) =
        a * 10 ^ (natDigitsAux f n).length + n := by
  induction f with
  | zero =>
    intro n a hn
    interval_cases n
    rw [natDigitsAux]
    simp
  | succ f ih =>
    intro n a hn
    rw [natDigitsAux]
    by_cases h0 : n = 0
    · rw [if_pos h0, h0]; simp
    · rw [if_neg h0, List.foldl_append]
      have hdiv : n / 10 ≤ f := by omega
      rw [ih (n / 10) a hdiv]
      have hd : (Nat.digitChar (n % 10)).toNat - 48 = n % 10 := by
        have h10 : n % 10 < 10 := Nat.mod_lt n (by omega)
        have hall : ∀ d, d < 10 → (Nat.digitChar d).toNat - 48 = d := by decide
        exact hall _ h10
      simp only [List.foldl_cons, List.foldl_nil, List.length_append,
        List.length_singleton, hd]
      rw [pow_succ, ← mul_assoc]
      generalize a * 10 ^ (natDigitsAux f (n / 10)).length = Q
      omega

theorem charsVal_natDigitsChars (n : Nat) : charsVal (natDigitsChars n) = n := by
  rw [natDigitsChars]
  by_cases h0 : n = 0
  · rw [if_pos h0, h0]; decide
  · rw [if_neg h0, charsVal, charsVal_natDigitsAux n n 0 le_rfl]
    simp

theorem natDigitsChars_inj {m k : Nat}
    (h : natDigitsChars m = natDigitsChars k) : m = k := by
  have h2 := congrArg charsVal h
  rwa [charsVal_natDigitsChars, charsVal_natDigitsChars] at h2

theorem natDigitsChars_ne_nil (n : Nat) : natDigitsChars n ≠ [] := by
  rw [natDigitsChars]
  split
  · simp
  · intro h
    have h2 := congrArg List.length h
    have h3 := charsVal_natDigitsAux n n 0 le_rfl
    rw [h] at h3
    simp at h2 h3
    omega

/-!
### The placeholder text and its character classes
-/

/-- Well-formedness of a code/whitespace document: whitespace segments hold
only whitespace characters, code bodies hold no backquote (so the fences
are unambiguous) and no underscore (so no body can collide with a
placeholder; the counterexample above shows the converter corrupts
documents violating this). -/
def segWf : MdSeg → Prop
  | .ws w => ∀ c ∈ w, isPySpace c = true
  | .code b => '`' ∉ b ∧ '_' ∉ b

/-- The text after pass 1: whitespace kept, the `i`-th code block replaced
by its placeholder. -/
def phText : List MdSeg → Nat → List Char
  | [], _ => []
  | .ws w :: rest, n => w ++ phText rest n
  | .code _ :: rest, n => placeholderChars n ++ phText rest (n + 1)

/-- The extracted blocks, in order. -/
def codeBlocks : List MdSeg → List (List Char)
  | [] => []
  | .ws _ :: rest => codeBlocks rest
  | .code b :: rest =>
    ('`' :: '`' :: '`' :: (b ++ ['`', '`', '`'])) :: codeBlocks rest

theorem placeholder_eq (k : Nat) :
    placeholderChars k =
      '_' :: '_' :: 'C' :: 'O' :: 'D' :: 'E' :: 'B' :: 'L' :: 'O' :: 'C' ::
        'K' :: '_' :: (natDigitsChars k ++ ['_', '_']) := by
  simp [placeholderChars, phStem]

theorem isPySpace_ne (c : Char) (h : isPySpace c = true) :
    c ≠ '*' ∧ c ≠ '#' ∧ c ≠ '-' ∧ c ≠ '_' ∧ c ≠ '`' ∧ c ≠ 'C' := by
  simp only [isPySpace, Bool.or_eq_true, decide_eq_true_eq] at h
  rcases h with ((((((h | h) | h) | h) | h) | h) | h) | h <;> subst h <;> decide

theorem digit_ne (c : Char) (h : c ∈ digitList) :
    c ≠ '*' ∧ c ≠ '#' ∧ c ≠ '-' ∧ c ≠ '_' ∧ c ≠ '`' ∧ c ≠ 'C' := by
  fin_cases h <;> decide

theorem placeholder_chars (n : Nat) :
    ∀ c ∈ placeholderChars n, c ≠ '*' ∧ c ≠ '#' ∧ c ≠ '-' ∧ c ≠ '`' := by
  intro c hc
  rw [placeholder_eq] at hc
  simp only [List.mem_cons] at hc
  rcases hc with rfl | rfl | rfl | rfl | rfl | rfl | rfl | rfl | rfl | rfl |
    rfl | rfl | hc
  · decide
  · decide
  · decide
  · decide
  · decide
  · decide
  · decide
  · decide
  · decide
  · decide
  · decide
  · decide
  · rcases List.mem_append.mp hc with hc | hc
    · have := digit_ne c (natDigitsChars_mem n c hc)
      exact ⟨this.1, this.2.1, this.2.2.1, this.2.2.2.2.1⟩
    · rcases List.mem_cons.mp hc with rfl | hc
      · decide
      · rw [List.mem_singleton] at hc; subst hc; decide

theorem phText_chars (segs : List MdSeg) :
    ∀ n, (∀ s ∈ segs, segWf s) →
      ∀ c ∈ phText segs n, c ≠ '*' ∧ c ≠ '#' ∧ c ≠ '-' ∧ c ≠ '`' := by
  induction segs with
  | nil => intro n _ c hc; rw [phText] at hc; cases hc
  | cons seg rest ih =>
    intro n hwf c hc
    have hwfr : ∀ s ∈ rest, segWf s :=
      fun s hs => hwf s (List.mem_cons_of_mem _ hs)
    cases seg with
    | ws w =>
      rw [phText] at hc
      rcases List.mem_append.mp hc with hc | hc
      · have := isPySpace_ne c (hwf _ (List.mem_cons_self _ _) c hc)
        exact ⟨this.1, this.2.1, this.2.2.1, this.2.2.2.2.1⟩
      · exact ih n hwfr c hc
    | code b =>
      rw [phText] at hc
      rcases List.mem_append.mp hc with hc | hc
      · exact placeholder_chars n c hc
      · exact ih (n + 1) hwfr c hc

/-!
### The substitution passes do not touch placeholder text
-/

theorem boldPassF_id (f : Nat) :
    ∀ s : List Char, (∀ c ∈ s, c ≠ '*') → boldPassF f s = s := by
  induction f with
  | zero => intro s _; rfl
  | succ f ih =>
    intro s hs
    cases s with
    | nil => rfl
    | cons c cs =>
      have hc : c ≠ '*' := hs c (List.mem_cons_self _ _)
      rw [boldPassF.eq_4 f c cs (fun _ h _ => hc h),
        ih cs (fun x hx => hs x (List.mem_cons_of_mem _ hx))]

theorem tryHeading_none (s : List Char) (hs : '#' ∉ s) : tryHeading s = none := by
  have h1 : ((s.dropWhile fun c => c = ' ' || c = '\t').takeWhile
      fun c => c = '#') = [] := by
    cases hds : s.dropWhile (fun c => c = ' ' || c = '\t') with
    | nil => rfl
    | cons c cs =>
      have hcmem : c ∈ s := by
        have hsub := (List.dropWhile_sublist
          (l := s) (p := fun c => c = ' ' || c = '\t')).subset
        exact hsub (hds ▸ List.mem_cons_self c cs)
      have hcne : ¬ (c = '#') := fun hcc => hs (hcc ▸ hcmem)
      simp [List.takeWhile_cons, hcne]
  simp only [tryHeading, h1]
  simp

theorem headingPassF_id (f : Nat) :
    ∀ (s : List Char) (bol : Bool), '#' ∉ s → headingPassF f bol s = s := by
  induction f with
  | zero => intro s bol _; rfl
  | succ f ih =>
    intro s bol hs
    cases s with
    | nil => rfl
    | cons c cs =>
      have hcs : '#' ∉ cs := fun h => hs (List.mem_cons_of_mem _ h)
      cases bol with
      | false =>
        rw [headingPassF]
        simp only [Bool.false_eq_true, if_false]
        rw [ih cs (c == '\n') hcs]
      | true =>
        rw [headingPassF]
        simp only [if_true]
        rw [tryHeading_none (c :: cs) hs, ih cs (c == '\n') hcs]

theorem tryList_none (s : List Char) (hs1 : '-' ∉ s) (hs2 : '*' ∉ s) :
    tryList s = none := by
  cases hds : s.dropWhile (fun c => c = ' ' || c = '\t') with
  | nil => simp only [tryList, hds]
  | cons c cs =>
    have hcmem : c ∈ s := by
      have hsub := (List.dropWhile_sublist
        (l := s) (p := fun c => c = ' ' || c = '\t')).subset
      exact hsub (hds ▸ List.mem_cons_self c cs)
    have hcne : ¬ (c = '-' || c = '*') = true := by
      simp only [Bool.or_eq_true, decide_eq_true_eq]
      rintro (rfl | rfl)
      · exact hs1 hcmem
      · exact hs2 hcmem
    simp only [tryList, hds, if_neg hcne]

theorem listPassF_id (f : Nat) :
    ∀ (s : List Char) (bol : Bool), '-' ∉ s → '*' ∉ s →
      listPassF f bol s = s := by
  induction f with
  | zero => intro s bol _ _; rfl
  | succ f ih =>
    intro s bol hs1 hs2
    cases s with
    | nil => rfl
    | cons c cs =>
      have hcs1 : '-' ∉ cs := fun h => hs1 (List.mem_cons_of_mem _ h)
      have hcs2 : '*' ∉ cs := fun h => hs2 (List.mem_cons_of_mem _ h)
      cases bol with
      | false =>
        rw [listPassF]
        simp only [Bool.false_eq_true, if_false]
        rw [ih cs (c == '\n') hcs1 hcs2]
      | true =>
        rw [listPassF]
        simp only [if_true]
        rw [tryList_none (c :: cs) hs1 hs2, ih cs (c == '\n') hcs1 hcs2]

/-!
### Pass 1 on a well-formed code/whitespace document
-/

theorem codeClose_append (b : List Char) (hb : '`' ∉ b) (r : List Char) :
    codeClose (b ++ '`' :: '`' :: '`' :: r) = some (b, r) := by
  induction b with
  | nil => rfl
  | cons c b' ih =>
    have hc : c ≠ '`' := fun h => hb (h ▸ List.mem_cons_self _ _)
    have hb' : '`' ∉ b' := fun h => hb (List.mem_cons_of_mem _ h)
    rw [List.cons_append,
      codeClose.eq_2 c (b' ++ '`' :: '`' :: '`' :: r) (fun _ h _ => hc h),
      ih hb']

theorem extractCode_ws_skip (w : List Char) (hw : ∀ c ∈ w, c ≠ '`') :
    ∀ (f n : Nat) (s : List Char) (res : List Char × List (List Char)),
      (w ++ s).length ≤ f →
      (∀ g, s.length ≤ g → extractCodeF g n s = res) →
      extractCodeF f n (w ++ s) = (w ++ res.1, res.2) := by
  induction w with
  | nil =>
    intro f n s res hf hcont
    rw [List.nil_append, hcont f (by simpa using hf), List.nil_append]
  | cons c w' ih =>
    intro f n s res hf hcont
    have hc : c ≠ '`' := hw c (List.mem_cons_self _ _)
    have hw' : ∀ x ∈ w', x ≠ '`' := fun x hx => hw x (List.mem_cons_of_mem _ hx)
    cases f with
    | zero => simp at hf
    | succ f =>
      have hlen : (w' ++ s).length ≤ f := by
        simp only [List.cons_append, List.length_cons, List.length_append]
          at hf
        simp only [List.length_append]
        omega
      rw [List.cons_append,
        extractCodeF.eq_4 n f c (w' ++ s) (fun _ h _ => hc h),
        ih hw' f n s res hlen hcont]
      simp

theorem extractCode_spec (segs : List MdSeg) (hwf : ∀ s ∈ segs, segWf s) :
    ∀ (n f : Nat), (renderSegs segs).length ≤ f →
      extractCodeF f n (renderSegs segs) = (phText segs n, codeBlocks segs) := by
  induction segs with
  | nil =>
    intro n f _
    have hr : renderSegs [] = [] := rfl
    rw [hr, phText, codeBlocks]
    cases f <;> rfl
  | cons seg rest ih =>
    intro n f hf
    have hwfr : ∀ s ∈ rest, segWf s :=
      fun s hs => hwf s (List.mem_cons_of_mem _ hs)
    cases seg with
    | ws w =>
      have hw : ∀ c ∈ w, isPySpace c = true := hwf _ (List.mem_cons_self _ _)
      have hw' : ∀ c ∈ w, c ≠ '`' :=
        fun c hc => (isPySpace_ne c (hw c hc)).2.2.2.2.1
      have hr : renderSegs (MdSeg.ws w :: rest) = w ++ renderSegs rest := by
        simp [renderSegs, renderSeg]
      rw [hr] at hf ⊢
      rw [extractCode_ws_skip w hw' f n (renderSegs rest)
        (phText rest n, codeBlocks rest) hf
        (fun g hg => ih hwfr n g hg)]
      rw [phText, codeBlocks]
    | code b =>
      obtain ⟨hb1, hb2⟩ : '`' ∉ b ∧ '_' ∉ b := hwf _ (List.mem_cons_self _ _)
      have hr : renderSegs (MdSeg.code b :: rest) =
          '`' :: '`' :: '`' :: (b ++ '`' :: '`' :: '`' :: renderSegs rest) := by
        simp [renderSegs, renderSeg]
      rw [hr] at hf ⊢
      cases f with
      | zero => simp at hf
      | succ f =>
        rw [extractCodeF, codeClose_append b hb1 (renderSegs rest)]
        have hlen : (renderSegs rest).length ≤ f := by
          simp only [List.length_cons, List.length_append] at hf
          omega
        show (placeholderChars n ++ (extractCodeF f (n + 1) (renderSegs rest)).1,
          ('`' :: '`' :: '`' :: (b ++ ['`', '`', '`'])) ::
            (extractCodeF f (n + 1) (renderSegs rest)).2) = _
        rw [ih hwfr (n + 1) f hlen, phText, codeBlocks]

/-!
### `str.replace` lemmas for placeholder restoration
-/

theorem replaceAllF_fuel (pat rep : List Char) :
    ∀ (f : Nat), ∀ (g : Nat) (s : List Char), s.length ≤ f → s.length ≤ g →
      replaceAllF f pat rep s = replaceAllF g pat rep s := by
  intro f
  induction f with
  | zero =>
    intro g s hf _
    have hs : s = [] := List.eq_nil_of_length_eq_zero (Nat.le_zero.mp hf)
    subst hs
    cases g <;> rfl
  | succ f ih =>
    intro g s hf hg
    cases s with
    | nil => cases g <;> rfl
    | cons c cs =>
      cases g with
      | zero => simp at hg
      | succ g =>
        rw [replaceAllF, replaceAllF]
        by_cases hcond : (!pat.isEmpty && pat.isPrefixOf (c :: cs)) = true
        · rw [if_pos hcond, if_pos hcond]
          have hp : 1 ≤ pat.length := by
            cases pat with
            | nil => simp at hcond
            | cons _ _ => simp
          have hd : ((c :: cs).drop pat.length).length ≤ f := by
            simp only [List.length_drop, List.length_cons] at *
            omega
          have hd2 : ((c :: cs).drop pat.length).length ≤ g := by
            simp only [List.length_drop, List.length_cons] at *
            omega
          rw [ih g ((c :: cs).drop pat.length) hd hd2]
        · rw [if_neg hcond, if_neg hcond]
          have hcs : cs.length ≤ f := by simp at hf; omega
          have hcs2 : cs.length ≤ g := by simp at hg; omega
          rw [ih g cs hcs hcs2]

theorem replaceAll_skip (p0 : Char) (pt rep : List Char) :
    ∀ (a : List Char) (s : List Char), (∀ c ∈ a, c ≠ p0) →
      replaceAll (p0 :: pt) rep (a ++ s) =
        a ++ replaceAll (p0 :: pt) rep s := by
  intro a
  induction a with
  | nil => intro s _; simp
  | cons c a' iha =>
    intro s ha
    have hc : c ≠ p0 := ha c (List.mem_cons_self _ _)
    have ha' : ∀ x ∈ a', x ≠ p0 := fun x hx => ha x (List.mem_cons_of_mem _ hx)
    have hbeq : (p0 == c) = false := beq_eq_false_iff_ne.mpr fun h => hc h.symm
    rw [replaceAll, List.cons_append, List.length_cons, replaceAllF]
    have hcond : (!(p0 :: pt).isEmpty &&
        (p0 :: pt).isPrefixOf (c :: (a' ++ s))) = false := by
      simp only [List.isPrefixOf, hbeq, Bool.false_and, Bool.and_false]
    rw [if_neg (ne_true_of_eq_false hcond)]
    rw [show replaceAllF (a' ++ s).length (p0 :: pt) rep (a' ++ s) =
        replaceAll (p0 :: pt) rep (a' ++ s) from rfl]
    rw [iha s ha']
    rfl

theorem replaceAll_head (pat rep s : List Char) (hp : pat ≠ []) :
    replaceAll pat rep (pat ++ s) = rep ++ replaceAll pat rep s := by
  obtain ⟨p0, pt, rfl⟩ := List.exists_cons_of_ne_nil hp
  rw [replaceAll, List.cons_append, List.length_cons, replaceAllF]
  have hcond : (!(p0 :: pt).isEmpty &&
      (p0 :: pt).isPrefixOf (p0 :: (pt ++ s))) = true := by
    simp only [List.isEmpty_cons, Bool.not_false, Bool.true_and]
    rw [List.isPrefixOf_iff_prefix]
    exact List.prefix_append (p0 :: pt) s
  rw [if_pos hcond]
  have hdrop : (p0 :: (pt ++ s)).drop (p0 :: pt).length = s := by
    rw [show p0 :: (pt ++ s) = (p0 :: pt) ++ s from rfl]
    exact List.drop_left (p0 :: pt) s
  rw [hdrop]
  rw [replaceAllF_fuel (p0 :: pt) rep (pt ++ s).length s.length s
    (by simp) le_rfl]
  rfl

theorem replaceAll_no_occurrence (pat rep : List Char) (hp : pat ≠ []) :
    ∀ s : List Char, ¬ pat <:+: s → replaceAll pat rep s = s := by
  intro s
  induction s with
  | nil => intro _; rfl
  | cons c cs ihs =>
    intro h
    rw [replaceAll, List.length_cons, replaceAllF]
    have hcond : (!pat.isEmpty && pat.isPrefixOf (c :: cs)) = false := by
      cases hchk : pat.isPrefixOf (c :: cs) with
      | false => simp [hchk]
      | true =>
        exact absurd ((List.isPrefixOf_iff_prefix.mp hchk).isInfix) h
    rw [if_neg (ne_true_of_eq_false hcond)]
    rw [show replaceAllF cs.length pat rep cs = replaceAll pat rep cs from rfl]
    rw [ihs (fun hinf => h (List.infix_cons hinf))]

/-!
### A placeholder never occurs in later placeholder text
-/

theorem occurrence_append_of_head_notin {p0 : Char} {pt : List Char} :
    ∀ {a t : List Char}, (∀ c ∈ a, c ≠ p0) →
      (p0 :: pt) <:+: a ++ t → (p0 :: pt) <:+: t := by
  intro a
  induction a with
  | nil => intro t _ h; simpa using h
  | cons c a' iha =>
    intro t ha h
    rw [List.cons_append, List.infix_cons_iff] at h
    rcases h with h | h
    · rw [List.cons_prefix_cons] at h
      exact absurd h.1.symm (ha c (List.mem_cons_self _ _))
    · exact iha (fun x hx => ha x (List.mem_cons_of_mem _ hx)) h

/-- After a placeholder, the remaining pass-1 text never begins with `C`
nor with `_C` — these are the only continuations that could complete a
placeholder occurrence overlapping the previous one. -/
@[reducible] def headSafe (t : List Char) : Prop :=
  (∀ r, t ≠ 'C' :: r) ∧ (∀ r, t ≠ '_' :: 'C' :: r)

theorem headSafe_phText (segs : List MdSeg) :
    ∀ n, (∀ s ∈ segs, segWf s) → headSafe (phText segs n) := by
  induction segs with
  | nil =>
    intro n _
    exact ⟨fun r h => List.noConfusion h, fun r h => List.noConfusion h⟩
  | cons seg rest ih =>
    intro n hwf
    have hwfr : ∀ s ∈ rest, segWf s :=
      fun s hs => hwf s (List.mem_cons_of_mem _ hs)
    cases seg with
    | ws w =>
      cases w with
      | nil =>
        have h : phText (MdSeg.ws [] :: rest) n = phText rest n := by
          rw [phText]; rfl
        rw [h]
        exact ih n hwfr
      | cons c w' =>
        have hcsp := hwf _ (List.mem_cons_self _ _) c (List.mem_cons_self _ _)
        have h1 : c ≠ 'C' := (isPySpace_ne c hcsp).2.2.2.2.2
        have h2 : c ≠ '_' := (isPySpace_ne c hcsp).2.2.2.1
        constructor
        · intro r h
          rw [phText, List.cons_append] at h
          injection h with hh
          exact h1 hh
        · intro r h
          rw [phText, List.cons_append] at h
          injection h with hh
          exact h2 hh
    | code b =>
      constructor
      · intro r h
        rw [phText, placeholder_eq] at h
        simp only [List.cons_append] at h
        injection h with hh
        exact absurd hh (by decide)
      · intro r h
        rw [phText, placeholder_eq] at h
        simp only [List.cons_append] at h
        injection h with hh h'
        injection h' with hh2
        exact absurd hh2 (by decide)

theorem occurrence_through_digits {k : Nat} :
    ∀ (dm : List Char), (∀ c ∈ dm, c ∈ digitList) →
      ∀ {t : List Char}, headSafe t →
        placeholderChars k <:+: dm ++ '_' :: '_' :: t →
        placeholderChars k <:+: t := by
  intro dm
  induction dm with
  | nil =>
    intro _ t hq h
    rw [List.nil_append, List.infix_cons_iff] at h
    rcases h with h | h
    · -- an occurrence starting at the first of the two underscores
      rw [placeholder_eq, List.cons_prefix_cons] at h
      have h2 := h.2
      rw [List.cons_prefix_cons] at h2
      have h3 := h2.2
      cases t with
      | nil => exact absurd (List.prefix_nil.mp h3) (List.cons_ne_nil _ _)
      | cons t0 t' =>
        rw [List.cons_prefix_cons] at h3
        exact (hq.1 t' (by rw [h3.1])).elim
    · rw [List.infix_cons_iff] at h
      rcases h with h | h
      · -- an occurrence starting at the second underscore
        rw [placeholder_eq, List.cons_prefix_cons] at h
        have h2 := h.2
        cases t with
        | nil => exact absurd (List.prefix_nil.mp h2) (List.cons_ne_nil _ _)
        | cons t0 t' =>
          rw [List.cons_prefix_cons] at h2
          cases t' with
          | nil =>
            exact absurd (List.prefix_nil.mp h2.2) (List.cons_ne_nil _ _)
          | cons t1 t'' =>
            have h3 := h2.2
            rw [List.cons_prefix_cons] at h3
            exact (hq.2 t'' (by rw [h2.1, h3.1])).elim
      · exact h
  | cons d dm' ih =>
    intro hd t hq h
    rw [List.cons_append, List.infix_cons_iff] at h
    rcases h with h | h
    · rw [placeholder_eq, List.cons_prefix_cons] at h
      have hdd := digit_ne d (hd d (List.mem_cons_self _ _))
      exact (hdd.2.2.2.1 h.1.symm).elim
    · exact ih (fun c hc => hd c (List.mem_cons_of_mem _ hc)) hq h

theorem digits_prefix_absurd :
    ∀ (dk dm : List Char), (∀ c ∈ dk, c ∈ digitList) →
      (∀ c ∈ dm, c ∈ digitList) → dk ≠ dm →
      ∀ t : List Char, ¬ (dk ++ ['_', '_'] <+: dm ++ '_' :: '_' :: t) := by
  intro dk
  induction dk with
  | nil =>
    intro dm _ hdm hne t h
    cases dm with
    | nil => exact hne rfl
    | cons d dm' =>
      rw [List.nil_append, List.cons_append, List.cons_prefix_cons] at h
      exact (digit_ne d (hdm d (List.mem_cons_self _ _))).2.2.2.1 h.1.symm
  | cons a dk' ih =>
    intro dm hdk hdm hne t h
    cases dm with
    | nil =>
      rw [List.cons_append, List.nil_append, List.cons_prefix_cons] at h
      exact (digit_ne a (hdk a (List.mem_cons_self _ _))).2.2.2.1 h.1
    | cons d dm' =>
      rw [List.cons_append, List.cons_append, List.cons_prefix_cons] at h
      have hne' : dk' ≠ dm' := by
        intro hcontra
        exact hne (by rw [h.1, hcontra])
      exact ih dm' (fun c hc => hdk c (List.mem_cons_of_mem _ hc))
        (fun c hc => hdm c (List.mem_cons_of_mem _ hc)) hne' t h.2

theorem occurrence_through_placeholder {k m : Nat} (hkm : k ≠ m) :
    ∀ {t : List Char}, headSafe t →
      placeholderChars k <:+: placeholderChars m ++ t →
      placeholderChars k <:+: t := by
  intro t hq h
  have hshape : placeholderChars m ++ t =
      '_' :: '_' :: 'C' :: 'O' :: 'D' :: 'E' :: 'B' :: 'L' :: 'O' :: 'C' ::
        'K' :: '_' :: (natDigitsChars m ++ '_' :: '_' :: t) := by
    rw [placeholder_eq]
    simp [List.append_assoc]
  rw [hshape] at h
  -- offset 0
  rw [List.infix_cons_iff] at h
  rcases h with h | h
  · simp only [placeholder_eq, List.cons_prefix_cons, true_and] at h
    exact absurd h (digits_prefix_absurd (natDigitsChars k) (natDigitsChars m)
      (natDigitsChars_mem k) (natDigitsChars_mem m)
      (fun hc => hkm (natDigitsChars_inj hc)) t)
  -- offset 1
  rw [List.infix_cons_iff] at h
  rcases h with h | h
  · rw [placeholder_eq, List.cons_prefix_cons] at h
    have h2 := h.2
    rw [List.cons_prefix_cons] at h2
    exact absurd h2.1 (by decide)
  -- offsets 2 through 10: the head of the pattern is an underscore and the
  -- text position holds a letter of CODEBLOCK
  rw [List.infix_cons_iff] at h
  rcases h with h | h
  · rw [placeholder_eq, List.cons_prefix_cons] at h
    exact absurd h.1 (by decide)
  rw [List.infix_cons_iff] at h
  rcases h with h | h
  · rw [placeholder_eq, List.cons_prefix_cons] at h
    exact absurd h.1 (by decide)
  rw [List.infix_cons_iff] at h
  rcases h with h | h
  · rw [placeholder_eq, List.cons_prefix_cons] at h
    exact absurd h.1 (by decide)
  rw [List.infix_cons_iff] at h
  rcases h with h | h
  · rw [placeholder_eq, List.cons_prefix_cons] at h
    exact absurd h.1 (by decide)
  rw [List.infix_cons_iff] at h
  rcases h with h | h
  · rw [placeholder_eq, List.cons_prefix_cons] at h
    exact absurd h.1 (by decide)
  rw [List.infix_cons_iff] at h
  rcases h with h | h
  · rw [placeholder_eq, List.cons_prefix_cons] at h
    exact absurd h.1 (by decide)
  rw [List.infix_cons_iff] at h
  rcases h with h | h
  · rw [placeholder_eq, List.cons_prefix_cons] at h
    exact absurd h.1 (by decide)
  rw [List.infix_cons_iff] at h
  rcases h with h | h
  · rw [placeholder_eq, List.cons_prefix_cons] at h
    exact absurd h.1 (by decide)
  rw [List.infix_cons_iff] at h
  rcases h with h | h
  · rw [placeholder_eq, List.cons_prefix_cons] at h
    exact absurd h.1 (by decide)
  -- offset 11: after the pattern's leading underscore the text continues
  -- with the first digit
  rw [List.infix_cons_iff] at h
  rcases h with h | h
  · rw [placeholder_eq, List.cons_prefix_cons] at h
    obtain ⟨d, dm', hdm⟩ :=
      List.exists_cons_of_ne_nil (natDigitsChars_ne_nil m)
    have h2 := h.2
    rw [hdm, List.cons_append, List.cons_prefix_cons] at h2
    have hd : d ∈ digitList := natDigitsChars_mem m d (by rw [hdm]; simp)
    exact absurd h2.1 fun hcontra => (digit_ne d hd).2.2.2.1 hcontra.symm
  -- inside the digits and beyond
  exact occurrence_through_digits (natDigitsChars m) (natDigitsChars_mem m) hq h

theorem placeholder_not_occurring :
    ∀ (segs : List MdSeg) (m k : Nat), (∀ s ∈ segs, segWf s) → k < m →
      ¬ placeholderChars k <:+: phText segs m := by
  intro segs
  induction segs with
  | nil =>
    intro m k _ _ h
    rw [phText] at h
    rw [placeholder_eq] at h
    have := List.eq_nil_of_infix_nil h
    cases this
  | cons seg rest ih =>
    intro m k hwf hkm h
    have hwfr : ∀ s ∈ rest, segWf s :=
      fun s hs => hwf s (List.mem_cons_of_mem _ hs)
    cases seg with
    | ws w =>
      rw [phText, placeholder_eq] at h
      have hw : ∀ c ∈ w, c ≠ '_' := fun c hc =>
        (isPySpace_ne c (hwf _ (List.mem_cons_self _ _) c hc)).2.2.2.1
      have h2 := occurrence_append_of_head_notin hw h
      rw [← placeholder_eq] at h2
      exact ih m k hwfr hkm h2
    | code b =>
      rw [phText] at h
      have h2 := occurrence_through_placeholder (Nat.ne_of_lt hkm)
        (headSafe_phText rest (m + 1) hwfr) h
      exact ih (m + 1) k hwfr (by omega) h2

theorem restore_spec :
    ∀ (segs : List MdSeg) (k : Nat) (pre : List Char),
      (∀ s ∈ segs, segWf s) → '_' ∉ pre →
      restoreBlocksF k (codeBlocks segs) (pre ++ phText segs k) =
        pre ++ renderSegs segs := by
  intro segs
  induction segs with
  | nil =>
    intro k pre _ _
    rw [codeBlocks, phText, restoreBlocksF]
    simp [renderSegs]
  | cons seg rest ih =>
    intro k pre hwf hpre
    have hwfr : ∀ s ∈ rest, segWf s :=
      fun s hs => hwf s (List.mem_cons_of_mem _ hs)
    cases seg with
    | ws w =>
      have hw : ∀ c ∈ w, isPySpace c = true := hwf _ (List.mem_cons_self _ _)
      rw [codeBlocks, phText, ← List.append_assoc]
      rw [ih k (pre ++ w) hwfr (by
        intro hmem
        rcases List.mem_append.mp hmem with hmem | hmem
        · exact hpre hmem
        · exact (isPySpace_ne _ (hw _ hmem)).2.2.2.1 rfl)]
      have hr : renderSegs (MdSeg.ws w :: rest) = w ++ renderSegs rest := by
        simp [renderSegs, renderSeg]
      rw [hr, List.append_assoc]
    | code b =>
      obtain ⟨hb1, hb2⟩ : '`' ∉ b ∧ '_' ∉ b := hwf _ (List.mem_cons_self _ _)
      rw [codeBlocks, phText, restoreBlocksF]
      have hph : placeholderChars k = '_' ::
          ('_' :: 'C' :: 'O' :: 'D' :: 'E' :: 'B' :: 'L' :: 'O' :: 'C' ::
            'K' :: '_' :: (natDigitsChars k ++ ['_', '_'])) := placeholder_eq k
      have hskip :
          replaceAll (placeholderChars k)
              ('`' :: '`' :: '`' :: (b ++ ['`', '`', '`']))
              (pre ++ (placeholderChars k ++ phText rest (k + 1))) =
            pre ++ ('`' :: '`' :: '`' :: (b ++ ['`', '`', '`'])) ++
              phText rest (k + 1) := by
        rw [hph,
          replaceAll_skip _ _ _ pre _ (fun c hc hcc => hpre (by rwa [hcc] at hc)),
          ← hph,
          replaceAll_head _ _ _ (by rw [hph]; simp),
          replaceAll_no_occurrence _ _ (by rw [hph]; simp) _
            (placeholder_not_occurring rest (k + 1) k hwfr (by omega))]
        rw [List.append_assoc]
      rw [hskip]
      rw [ih (k + 1) (pre ++ ('`' :: '`' :: '`' :: (b ++ ['`', '`', '`'])))
        hwfr (by
          intro hmem
          rcases List.mem_append.mp hmem with hmem | hmem
          · exact hpre hmem
          · simp only [List.mem_cons] at hmem
            rcases hmem with h | h | h | hmem
            · exact absurd h (by decide)
            · exact absurd h (by decide)
            · exact absurd h (by decide)
            · rcases List.mem_append.mp hmem with hmem | hmem
              · exact hb2 hmem
              · simp only [List.mem_cons, List.mem_singleton] at hmem
                rcases hmem with h | h | h
                · exact absurd h (by decide)
                · exact absurd h (by decide)
                · exact absurd h (by decide))]
      have hr : renderSegs (MdSeg.code b :: rest) =
          ('`' :: '`' :: '`' :: (b ++ ['`', '`', '`'])) ++ renderSegs rest := by
        simp [renderSegs, renderSeg]
      rw [hr, List.append_assoc]

/-- Claim C9 (amended): a document consisting only of fenced code blocks
and whitespace — with code bodies free of backquotes (unambiguous fences)
and of underscores (no placeholder-shaped text, which the counterexample
shows the restoration pass corrupts) — is returned unchanged by
`_convert_md_to_slack`: extraction and restoration round-trip, and passes
2–4 leave the placeholder text untouched. -/
theorem code_block_roundtrip (segs : List MdSeg)
    (hwf : ∀ seg ∈ segs, segWf seg) :
    _convert_md_to_slack (renderSegs segs) = renderSegs segs := by
  have hex := extractCode_spec segs hwf 0 (renderSegs segs).length le_rfl
  have hchars := phText_chars segs 0 hwf
  rw [_convert_md_to_slack]
  rw [hex]
  rw [boldPassF_id _ _ (fun c hc => (hchars c hc).1)]
  rw [headingPassF_id _ _ _ (fun hc => (hchars _ hc).2.1 rfl)]
  rw [listPassF_id _ _ _ (fun hc => (hchars _ hc).2.2.1 rfl)
    (fun hc => (hchars _ hc).1 rfl)]
  have := restore_spec segs 0 [] hwf (by simp)
  simpa using this

/-- Witness for (amended) C9: a concrete document with two code blocks and
surrounding whitespace round-trips unchanged. -/
theorem code_block_roundtrip_witness :
    _convert_md_to_slack (renderSegs [MdSeg.ws ['\n'],
        MdSeg.code ['x', '=', '1'], MdSeg.ws [' ', '\n'], MdSeg.code ['y']]) =
      renderSegs [MdSeg.ws ['\n'], MdSeg.code ['x', '=', '1'],
        MdSeg.ws [' ', '\n'], MdSeg.code ['y']] :=
  code_block_roundtrip _ (by
    intro seg hs
    simp only [List.mem_cons, List.not_mem_nil, or_false] at hs
    rcases hs with rfl | rfl | rfl | rfl
    · simp only [segWf]; decide
    · simp only [segWf]; decide
    · simp only [segWf]; decide
    · simp only [segWf]; decide)

/-!
## The two Selectors (`fetch_press_releases`, `fetch_minister_interviews`)

External collaborators (HTTP transport + BeautifulSoup text extraction,
`urllib`'s `urljoin`, `textwrap.shorten`) are out of scope per the spec and
are passed in as the function bundle `Ext`; `fetchText` returns the
detail page's extracted text (`fetch_soup(url).get_text("\n", strip=True)`)
or the transport error. `feedparser`'s entry list and the listing page's
anchors are inputs. Timestamps (`struct_time`, assumed UTC) are epoch
seconds; dates are Python ordinals; `astimezone(JST)` is the fixed +9h
offset (Asia/Tokyo has no DST). The guard `getattr(e, "dc:date", None)` and
the value `e.dc_date_parsed` are modelled as one optional field. -/

inductive PyErr where
  | fetchError (msg : String)
  | valueError
deriving DecidableEq

structure Collab where
  fetchText : String → Except String String
  urljoin : String → String → String
  shorten : String → String

structure Entry where
  published_parsed : Option Int
  updated_parsed : Option Int
  dc_date_parsed : Option Int
  title : String
  link : String
deriving DecidableEq

structure Item where
  kind : String
  title : String
  link : String
  date : Int
  content : String
deriving DecidableEq

/-- Ordinal of 1970-01-01 (`date(1970, 1, 1).toordinal()`). -/
def EPOCH_ORDINAL : Int := 719163

/-- `dt.datetime(..., tzinfo=utc).astimezone(JST).date()` on epoch
seconds: shift by +9h and floor to a day. -/
def utc_to_jst_date (t : Int) : Int := EPOCH_ORDINAL + (t + 32400).fdiv 86400

/-- The `published_parsed` / `updated_parsed` / `dc:date` fallback chain of
`fetch_press_releases`, ending in the "assume the fetch date" default. -/
def derive_pub_date (fetch_date : Int) (e : Entry) : Int :=
  match e.published_parsed with
  | some t => utc_to_jst_date t
  | none =>
    match e.updated_parsed with
    | some t => utc_to_jst_date t
    | none =>
      match e.dc_date_parsed with
      | some t => utc_to_jst_date t
      | none => fetch_date

def fprGo (fd : Int) (ext : Collab) : List Entry → Except String (List Item)
  | [] => .ok []
  | e :: es =>
    let pub_date := derive_pub_date fd e
    if fd = pub_date then
      match ext.fetchText e.link with
      | .error err => .error err
      | .ok text =>
        (fprGo fd ext es).map
          ({ kind := "報道発表", title := e.title, link := e.link,
             date := pub_date, content := ext.shorten text } :: ·)
    else fprGo fd ext es

/-- `fetch_press_releases` from src/mlit_summary.py: iterate the first
`limit` feed entries, filter on the derived publication date, fetch each
kept entry's detail page (an uncaught fetch failure aborts the whole
call). -/
def fetch_press_releases_model (fd : Int) (ext : Collab) (entries : List Entry)
    (limit : Nat) : Except String (List Item) :=
  fprGo fd ext (entries.take limit)

/-!
### `_parse_japanese_date` and the calendar of `dt.date`
-/

def isDigitCh (c : Char) : Bool := '0' ≤ c && c ≤ '9'

def charVal (c : Char) : Nat := c.toNat - 48

/-- `\d{1,2}` immediately followed by the marker character (greedy with
the regex's backtracking: two digits are preferred). `\d` is modelled on
ASCII digits. -/
def jNum12 (marker : Char) : List Char → Option (Nat × List Char)
  | a :: b :: c :: rest =>
    if isDigitCh a then
      if isDigitCh b && c = marker then
        some (10 * charVal a + charVal b, rest)
      else if b = marker then some (charVal a, c :: rest)
      else none
    else none
  | [a, b] => if isDigitCh a && b = marker then some (charVal a, []) else none
  | _ => none

/-- One attempt of `(\d{4})年\s*(\d{1,2})月\s*(\d{1,2})日` anchored at the
current position. -/
def matchJDateAt : List Char → Option (Nat × Nat × Nat)
  | a :: b :: c :: d :: e :: rest =>
    if isDigitCh a && isDigitCh b && isDigitCh c && isDigitCh d &&
        e = '年' then
      match jNum12 '月' (rest.dropWhile isPySpace) with
      | some (mo, rest2) =>
        match jNum12 '日' (rest2.dropWhile isPySpace) with
        | some (dd, _) =>
          some (1000 * charVal a + 100 * charVal b + 10 * charVal c +
            charVal d, mo, dd)
        | none => none
      | none => none
    else none
  | _ => none

/-- `re.search`: leftmost match. -/
def searchJDate : List Char → Option (Nat × Nat × Nat)
  | [] => none
  | c :: rest =>
    match matchJDateAt (c :: rest) with
    | some r => some r
    | none => searchJDate rest

def isLeapYear (y : Nat) : Bool := (y % 4 = 0 && y % 100 ≠ 0) || y % 400 = 0

def daysInMonth (y m : Nat) : Nat :=
  if m = 2 then (if isLeapYear y then 29 else 28)
  else if m = 4 || m = 6 || m = 9 || m = 11 then 30
  else 31

def daysBeforeMonth (y m : Nat) : Nat :=
  ((List.range (m - 1)).map fun i => daysInMonth y (i + 1)).sum

/-- Python `date.toordinal()` (proleptic Gregorian, day 1 = 0001-01-01). -/
def date_toordinal (y m d : Nat) : Int :=
  (365 * (y - 1) + (y - 1) / 4 - (y - 1) / 100 + (y - 1) / 400 +
    daysBeforeMonth y m + d : Nat)

/-- `dt.date(y, m, d)`: raises `ValueError` outside the valid calendar. -/
def pyDate (y m d : Nat) : Except PyErr Int :=
  if 1 ≤ y ∧ y ≤ 9999 ∧ 1 ≤ m ∧ m ≤ 12 ∧ 1 ≤ d ∧ d ≤ daysInMonth y m then
    .ok (date_toordinal y m d)
  else .error .valueError

/-- `_parse_japanese_date` from src/mlit_summary.py: `None` when the
pattern is absent, otherwise `dt.date(y, mth, d)` — which raises on a
matched but invalid calendar date. -/
def _parse_japanese_date (text : String) : Except PyErr (Option Int) :=
  match searchJDate text.toList with
  | none => .ok none
  | some (y, m, d) => (pyDate y m d).map some

/-!
### `fetch_minister_interviews`
-/

def MLIT_DAIJIN_LIST_URL : String :=
  "https://www.mlit.go.jp/report/interview/daijin.html"

structure Anchor where
  href : String
  text : String
deriving DecidableEq

/-- Python `pat in hay` on strings: substring containment. -/
def strContains (hay pat : List Char) : Bool :=
  hay.tails.any fun t => pat.isPrefixOf t

/-- The link filter: kept unless `f"daijin{fds}.html" not in href and not
href.startswith("daijin")`. -/
def interviewKeep (fds : String) (href : String) : Bool :=
  strContains href.toList ("daijin" ++ fds ++ ".html").toList ||
    href.startsWith "daijin"

def fmiGo (fd : Int) (fds : String) (ext : Collab) (max_items : Nat) :
    List Anchor → Nat → Except PyErr (List Item)
  | [], _ => .ok []
  | a :: as, n =>
    if interviewKeep fds a.href then
      let detail_url := ext.urljoin MLIT_DAIJIN_LIST_URL a.href
      match ext.fetchText detail_url with
      | .error e => .error (.fetchError e)
      | .ok text =>
        match _parse_japanese_date text with
        | .error e => .error e
        | .ok parsed =>
          let pub_date := parsed.getD fd
          if fd ≠ pub_date then fmiGo fd fds ext max_items as n
          else
            let item : Item :=
              { kind := "大臣会見", title := a.text,
                link := detail_url, date := pub_date,
                content := ext.shorten text }
            if max_items ≤ n + 1 then .ok [item]
            else (fmiGo fd fds ext max_items as (n + 1)).map (item :: ·)
    else fmiGo fd fds ext max_items as n

/-- `fetch_minister_interviews` from src/mlit_summary.py. `fds` is
`fetch_date.strftime("%y%m%d")`, computed outside the model; `anchors` are
the listing page's links in document order. Candidate pages are fetched
before the date filter; a fetch failure or a `ValueError` from the date
parse aborts the whole call; the item count is capped after appending. -/
def fetch_minister_interviews_model (fd : Int) (fds : String) (ext : Collab)
    (anchors : List Anchor) (max_items : Nat) : Except PyErr (List Item) :=
  fmiGo fd fds ext max_items anchors 0

/-- Claim C4: a feed entry with no `published_parsed`, no `updated_parsed`
and no `dc:date` is assigned the run's fetch date, passes the equality
filter, and is emitted with `date` equal to the fetch date — missing
timestamps never cause exclusion. -/
theorem press_release_missing_dates_included (ext : Collab) (fd : Int)
    (e : Entry) (txt : String) (limit : Nat)
    (h1 : e.published_parsed = none) (h2 : e.updated_parsed = none)
    (h3 : e.dc_date_parsed = none)
    (hf : ext.fetchText e.link = .ok txt) (hl : 0 < limit) :
    derive_pub_date fd e = fd ∧
    fetch_press_releases_model fd ext [e] limit =
      .ok [{ kind := "報道発表", title := e.title, link := e.link,
             date := fd, content := ext.shorten txt }] := by
  have hd : derive_pub_date fd e = fd := by
    rw [derive_pub_date, h1, h2, h3]
  refine ⟨hd, ?_⟩
  rw [fetch_press_releases_model,
    List.take_of_length_le (by simpa using hl)]
  simp only [fprGo, hd, if_pos rfl, hf]
  rfl

def collabC4 : Collab :=
  { fetchText := fun _ => Except.ok "本文テキスト",
    urljoin := fun base href => base ++ href,
    shorten := fun s => s }

def entryC4 : Entry :=
  { published_parsed := none, updated_parsed := none, dc_date_parsed := none,
    title := "報道発表タイトル", link := "detail" }

/-- Witness for C4 at a concrete dateless entry. -/
theorem press_release_missing_dates_included_witness :
    derive_pub_date 739207 entryC4 = 739207 ∧
    fetch_press_releases_model 739207 collabC4 [entryC4] 20 =
      .ok [{ kind := "報道発表", title := "報道発表タイトル",
             link := "detail", date := 739207,
             content := "本文テキスト" }] :=
  press_release_missing_dates_included collabC4 739207 entryC4
    "本文テキスト" 20 rfl rfl rfl rfl (by decide)

/-!
## Claim C7: per-item fetch failures are not contained
-/

def collabC7 : Collab :=
  { fetchText := fun l =>
      if l = "good" then Except.ok "body" else Except.error "boom",
    urljoin := fun _ href => href,
    shorten := fun s => s }

def entryGood : Entry :=
  { published_parsed := none, updated_parsed := none, dc_date_parsed := none,
    title := "t1", link := "good" }

def entryBad : Entry :=
  { published_parsed := none, updated_parsed := none, dc_date_parsed := none,
    title := "t2", link := "bad" }

/-- Counterexample to claim C7 as stated: neither selector wraps the
per-candidate `fetch_soup` call in any handler, so one failing detail page
makes `fetch_press_releases` raise instead of returning the remaining
items (here the first entry fetched successfully and is lost too): the
result is the error, not `.ok` of the surviving item. -/
theorem detail_fetch_error_aborts_batch :
    fetch_press_releases_model 0 collabC7 [entryGood, entryBad] 20 =
      .error "boom" ∧
    fetch_press_releases_model 0 collabC7 [entryGood, entryBad] 20 ≠
      .ok [{ kind := "報道発表", title := "t1", link := "good",
             date := 0, content := "body" }] := by
  have h1 : fetch_press_releases_model 0 collabC7 [entryGood, entryBad] 20 =
      .error "boom" := rfl
  refine ⟨h1, ?_⟩
  intro h
  rw [h1] at h
  exact Except.noConfusion h

/-- Claim C7 (amended): a `FetchError` on a candidate's detail page
propagates out of the Selector and aborts the whole batch. For
`fetch_press_releases`: if any kept entry among the first `limit` has a
failing fetch, the whole call returns an error. For
`fetch_minister_interviews`: if the first filter-passing anchor's fetch
fails, the whole call returns that error. -/
theorem detail_fetch_error_propagates :
    (∀ (fd : Int) (ext : Collab) (entries : List Entry) (limit : Nat),
      (∃ e ∈ entries.take limit, derive_pub_date fd e = fd ∧
        ∃ msg, ext.fetchText e.link = .error msg) →
      ∃ err, fetch_press_releases_model fd ext entries limit = .error err) ∧
    (∀ (fd : Int) (fds : String) (ext : Collab) (max_items : Nat)
        (pre : List Anchor) (a : Anchor) (post : List Anchor) (err : String),
      (∀ x ∈ pre, interviewKeep fds x.href = false) →
      interviewKeep fds a.href = true →
      ext.fetchText (ext.urljoin MLIT_DAIJIN_LIST_URL a.href) = .error err →
      fetch_minister_interviews_model fd fds ext (pre ++ a :: post)
          max_items = .error (.fetchError err)) := by
  constructor
  · intro fd ext entries limit hex
    rw [fetch_press_releases_model]
    generalize entries.take limit = l at hex
    induction l with
    | nil => simp at hex
    | cons e' es ih =>
      simp only [List.mem_cons] at hex
      obtain ⟨e, he, hkept, msg, herr⟩ := hex
      simp only [fprGo]
      rcases he with rfl | he
      · rw [if_pos hkept.symm, herr]
        exact ⟨msg, rfl⟩
      · by_cases hk : fd = derive_pub_date fd e'
        · rw [if_pos hk]
          cases hft : ext.fetchText e'.link with
          | error m => exact ⟨m, rfl⟩
          | ok txt =>
            obtain ⟨err, herr2⟩ := ih ⟨e, he, hkept, msg, herr⟩
            rw [herr2]
            exact ⟨err, rfl⟩
        · rw [if_neg hk]
          exact ih ⟨e, he, hkept, msg, herr⟩
  · intro fd fds ext max_items pre a post err hpre hkeep herr
    rw [fetch_minister_interviews_model]
    induction pre with
    | nil =>
      simp only [List.nil_append, fmiGo, hkeep, if_true, herr]
    | cons x pre' ih =>
      have hx : interviewKeep fds x.href = false :=
        hpre x (List.mem_cons_self _ _)
      simp only [List.cons_append, fmiGo, hx]
      exact ih (fun y hy => hpre y (List.mem_cons_of_mem _ hy))
  
/-- Witness for (amended) C7: with one dateless entry whose fetch fails,
the press-release selector returns an error. -/
theorem detail_fetch_error_propagates_witness :
    ∃ err, fetch_press_releases_model 0 collabC7 [entryBad] 1 = .error err :=
  detail_fetch_error_propagates.1 0 collabC7 [entryBad] 1
    ⟨entryBad, by decide, by decide, "boom", rfl⟩

/-!
## Claim C6: the date-parse fallback
-/

def collabC6 : Collab :=
  { fetchText := fun _ => Except.ok "2025年13月45日",
    urljoin := fun _ href => href,
    shorten := fun s => s }

/-- Counterexample to claim C6 as stated: the text `2025年13月45日`
matches the date pattern but is not a valid calendar date, so
`dt.date(2025, 13, 45)` raises `ValueError`; nothing catches it, and the
interview selector is halted by it instead of falling back to the target
date. -/
theorem parse_japanese_date_invalid_raises :
    _parse_japanese_date "2025年13月45日" = .error PyErr.valueError ∧
    fetch_minister_interviews_model 739207 "251118" collabC6
        [{ href := "daijin251118.html", text := "会見" }] 5 =
      .error PyErr.valueError := by
  constructor
  · rfl
  · rfl

/-- Claim C6 (amended): a detail page whose text contains no
`YYYY年MM月DD日` expression never halts the interview selector:
`_parse_japanese_date` returns `None`, the candidate's date falls back to
the target date, and the item is emitted. (A text whose date expression
matches the pattern but is an invalid calendar date does raise; see the
counterexample.) -/
theorem interview_date_fallback_continues (fd : Int) (fds : String)
    (ext : Collab) (a : Anchor) (txt : String) (max_items : Nat)
    (hkeep : interviewKeep fds a.href = true)
    (hf : ext.fetchText (ext.urljoin MLIT_DAIJIN_LIST_URL a.href) = .ok txt)
    (hnone : searchJDate txt.toList = none) :
    _parse_japanese_date txt = .ok none ∧
    fetch_minister_interviews_model fd fds ext [a] max_items =
      .ok [{ kind := "大臣会見", title := a.text,
             link := ext.urljoin MLIT_DAIJIN_LIST_URL a.href, date := fd,
             content := ext.shorten txt }] := by
  have hp : _parse_japanese_date txt = .ok none := by
    rw [_parse_japanese_date, hnone]
  refine ⟨hp, ?_⟩
  rw [fetch_minister_interviews_model]
  simp only [fmiGo, hkeep, if_true, hf, hp, Option.getD_none, ne_eq,
    not_true_eq_false, if_false]
  by_cases hm : max_items ≤ 0 + 1
  · rw [if_pos hm]
  · rw [if_neg hm]
    rfl

def collabC6w : Collab :=
  { fetchText := fun _ => Except.ok "日付のない本文",
    urljoin := fun base href => base ++ href,
    shorten := fun s => s }

/-- Witness for (amended) C6 at a concrete dateless detail page. -/
theorem interview_date_fallback_continues_witness :
    _parse_japanese_date "日付のない本文" = .ok none ∧
    fetch_minister_interviews_model 739207 "251118" collabC6w
        [{ href := "daijin251118.html", text := "会見" }] 5 =
      .ok [{ kind := "大臣会見", title := "会見",
             link := MLIT_DAIJIN_LIST_URL ++ "daijin251118.html",
             date := 739207, content := "日付のない本文" }] :=
  interview_date_fallback_continues 739207 "251118" collabC6w
    { href := "daijin251118.html", text := "会見" } "日付のない本文" 5
    (by decide) rfl rfl

/-!
## `fetch_soup`: charset selection

`re.search(r"charset=([^\s;]+)", content_type, flags=re.I)` then
`.strip().strip('"')`, falling back to `resp.apparent_encoding` (a value
supplied by the HTTP layer, here an input) and finally `"utf-8"`; the
chosen name is used to decode the raw bytes with `errors="replace"`
(decoding itself is the codec collaborator, passed as a function).
-/

def charsetTokenCh (c : Char) : Bool := !isPySpace c && c ≠ ';'

/-- One attempt of the case-insensitive `charset=([^\s;]+)` at the current
position: the capture is the maximal nonempty run after the equals sign. -/
def matchCharsetAt : List Char → Option (List Char)
  | c1 :: c2 :: c3 :: c4 :: c5 :: c6 :: c7 :: '=' :: rest =>
    if c1.toLower = 'c' && c2.toLower = 'h' && c3.toLower = 'a' &&
        c4.toLower = 'r' && c5.toLower = 's' && c6.toLower = 'e' &&
        c7.toLower = 't' then
      let tok := rest.takeWhile charsetTokenCh
      if tok.isEmpty then none else some tok
    else none
  | _ => none

/-- `re.search`: leftmost position with a match. -/
def findCharset : List Char → Option (List Char)
  | [] => none
  | c :: rest =>
    match matchCharsetAt (c :: rest) with
    | some tok => some tok
    | none => findCharset rest

/-- Python `str.strip()` (whitespace at both ends). -/
def pyStrip (s : List Char) : List Char :=
  ((s.dropWhile isPySpace).reverse.dropWhile isPySpace).reverse

/-- Python `str.strip('"')`. -/
def stripQuotes (s : List Char) : List Char :=
  ((s.dropWhile fun c => c = '"').reverse.dropWhile fun c => c = '"').reverse

/-- The charset-selection chain of `fetch_soup`. -/
def select_charset (content_type : List Char) (apparent : Option (List Char)) :
    List Char :=
  let enc0 : Option (List Char) :=
    match findCharset content_type with
    | some tok => some (stripQuotes (pyStrip tok))
    | none => none
  let enc1 : Option (List Char) :=
    match enc0 with
    | some e => if e.isEmpty then apparent else some e
    | none => apparent
  match enc1 with
  | some e => if e.isEmpty then "utf-8".toList else e
  | none => "utf-8".toList

/-- `fetch_soup`'s decode step: the selected charset decodes the raw
bytes (with replacement-character substitution, inside `decode`). -/
def fetch_soup_text (decode : List Char → List Nat → List Char)
    (content_type : List Char) (apparent : Option (List Char))
    (raw : List Nat) : List Char :=
  decode (select_charset content_type apparent) raw

/-- Claim C5: `fetch_soup` picks the decoding charset in priority order —
(1) the `charset` parameter found in the Content-Type header by the
case-insensitive pattern, stripped of whitespace and surrounding quotes;
(2) otherwise the HTTP layer's apparent encoding; (3) otherwise UTF-8 —
and decodes the raw bytes with the chosen charset. -/
theorem fetch_soup_charset_priority :
    (∀ (ct : List Char) (app : Option (List Char)) (tok : List Char),
      findCharset ct = some tok → stripQuotes (pyStrip tok) ≠ [] →
      select_charset ct app = stripQuotes (pyStrip tok)) ∧
    (∀ (ct : List Char) (app : Option (List Char)) (a : List Char),
      (findCharset ct = none ∨
        ∃ tok, findCharset ct = some tok ∧ stripQuotes (pyStrip tok) = []) →
      app = some a → a ≠ [] → select_charset ct app = a) ∧
    (∀ (ct : List Char) (app : Option (List Char)),
      (findCharset ct = none ∨
        ∃ tok, findCharset ct = some tok ∧ stripQuotes (pyStrip tok) = []) →
      (app = none ∨ app = some []) →
      select_charset ct app = "utf-8".toList) ∧
    (∀ (decode : List Char → List Nat → List Char) (ct : List Char)
        (app : Option (List Char)) (raw : List Nat),
      fetch_soup_text decode ct app raw =
        decode (select_charset ct app) raw) := by
  have hnotempty : ∀ l : List Char, l ≠ [] → l.isEmpty = false := by
    intro l hl
    cases h2 : l.isEmpty with
    | false => rfl
    | true => exact absurd (List.isEmpty_iff.mp h2) hl
  refine ⟨?_, ?_, ?_, fun _ _ _ _ => rfl⟩
  · intro ct app tok htok hne
    simp only [select_charset, htok, hnotempty _ hne, Bool.false_eq_true,
      if_false]
  · intro ct app a hhdr happ hane
    subst happ
    rcases hhdr with h | ⟨tok, htok, hempty⟩
    · simp only [select_charset, h, hnotempty _ hane, Bool.false_eq_true,
        if_false]
    · simp only [select_charset, htok, hempty, List.isEmpty_nil, if_true,
        hnotempty _ hane, Bool.false_eq_true, if_false]
  · intro ct app hhdr happ
    rcases happ with rfl | rfl
    · rcases hhdr with h | ⟨tok, htok, hempty⟩
      · simp only [select_charset, h]
      · simp only [select_charset, htok, hempty, List.isEmpty_nil, if_true]
    · rcases hhdr with h | ⟨tok, htok, hempty⟩
      · simp only [select_charset, h, List.isEmpty_nil, if_true]
      · simp only [select_charset, htok, hempty, List.isEmpty_nil, if_true]

/-- Witness for C5: a quoted `Shift_JIS` charset parameter in a concrete
Content-Type header wins over a present apparent encoding. -/
theorem fetch_soup_charset_priority_witness :
    select_charset ("text/html; charset=\"Shift_JIS\"".toList)
        (some ("cp932".toList)) = "Shift_JIS".toList :=
  fetch_soup_charset_priority.1 ("text/html; charset=\"Shift_JIS\"".toList)
    (some ("cp932".toList)) ("\"Shift_JIS\"".toList) (by decide) (by decide)
